import Mathlib

/-!
Verification development for the dataflow-join repository.

This file gives a shallow embedding, in Lean, of the core data structures and
algorithms of the repository:

* `advance` — the exponential-then-binary ("galloping") forward search of
  `src/timely_rule/mod.rs`;
* `EdgeList` — the per-key LSM list of sorted runs of
  `src/wings_rule/index.rs` (module `edge_list_neu`);
* `CompactIndex`, `Unsorted`, `Index` — the compacted snapshot, the
  uncommitted-diff buffer, and the keyed index of `src/wings_rule/index.rs`,
  together with the `count`, `forward_propose`, `reverse_propose`,
  `intersect`, `intersect_only` and `merge_to` primitives;
* `GenericJoin.extend` — the generic-join step of `src/timely_rule/mod.rs`,
  with timely streams embedded as lists;
* `DirReader.read_edges` — the directory edge reader of
  `src/wings_plan/dir_reader.rs`, with the file system embedded as a list of
  files, each a list of lines.

Machine integers are embedded as `Nat`/`Int`.  The one place where unsigned
wrap-around is semantically relevant — the `usize` subtraction
`bounds[n-2] - bounds[n-1]` inside `EdgeList::seal_from`, whose operands are
reversed in the source and therefore underflow — is modeled explicitly with
`wrapSub`, two's-complement wrapping at `2^64` (the release-mode behavior of
the Rust code).

Prefixes (`Vec<Node>` in the source, with the `Indexable` impl of
`src/lib.rs`) are embedded as `List Nat`; `get_src` reads position 0,
`get_dst` position 1, and `find` is membership.
-/

namespace DataflowJoin

/-! ### advance (src/timely_rule/mod.rs, `advance`)

The source:

    let mut index = 0;
    if index < slice.len() && function(&slice[index]) {
        let mut step = 1;
        while index + step < slice.len() && function(&slice[index + step]) {
            index += step;
            step = step << 1;
        }
        step = step >> 1;
        while step > 0 {
            if index + step < slice.len() && function(&slice[index + step]) {
                index += step;
            }
            step = step >> 1;
        }
        index += 1;
    }
    index
-/

/-- The first (exponentially growing) loop of `advance`; returns the final
`(index, step)` pair.  Structural recursion on an explicit `fuel`, so the
definition evaluates by kernel reduction; `advance` passes
`slice.length + 1`, which is more than the loop can ever iterate (the index
strictly grows and stays below `slice.length`), so the fuel-exhausted case
is unreachable. -/
def advLoop1 {α : Type} (slice : List α) (f : α → Bool) :
    Nat → Nat → Nat → Nat × Nat
  | 0, index, step => (index, step)
  | fuel + 1, index, step =>
    if h : index + step < slice.length then
      if f (slice.get ⟨index + step, h⟩) then
        advLoop1 slice f fuel (index + step) (step * 2)
      else (index, step)
    else
      (index, step)

/-- The second (exponentially shrinking) loop of `advance`; returns the
final `index`.  The fuel bounds the number of halvings of `step`; `advance`
passes `step` itself, which is ample. -/
def advLoop2 {α : Type} (slice : List α) (f : α → Bool) :
    Nat → Nat → Nat → Nat
  | 0, index, _ => index
  | fuel + 1, index, step =>
    if step = 0 then index
    else
      advLoop2 slice f fuel
        (if h : index + step < slice.length then
          (if f (slice.get ⟨index + step, h⟩) then index + step else index)
         else index)
        (step / 2)

/-- Reports the number of leading elements of `slice` satisfying `f`,
assuming `f` stays false once it becomes false (galloping search,
`advance` in src/timely_rule/mod.rs). -/
def advance {α : Type} (slice : List α) (f : α → Bool) : Nat :=
  if h0 : 0 < slice.length then
    if f (slice.get ⟨0, h0⟩) then
      let is := advLoop1 slice f (slice.length + 1) 0 1
      advLoop2 slice f is.2 is.1 (is.2 / 2) + 1
    else 0
  else 0

theorem advLoop1_spec {α : Type} (slice : List α) (f : α → Bool) (L : Nat)
    (hL : L ≤ slice.length)
    (hf : ∀ j (hj : j < slice.length), (f (slice.get ⟨j, hj⟩) = true) ↔ j < L) :
    ∀ fuel index step, 0 < step → slice.length - index < fuel → index < L →
      (advLoop1 slice f fuel index step).1 < L ∧
      L ≤ (advLoop1 slice f fuel index step).1 + (advLoop1 slice f fuel index step).2 ∧
      ∃ m, (advLoop1 slice f fuel index step).2 = step * 2 ^ m := by
  intro fuel
  induction fuel with
  | zero => intro index step hstep hfuel hidx; omega
  | succ n ih =>
    intro index step hstep hfuel hidx
    rw [advLoop1]
    by_cases h : index + step < slice.length
    · rw [dif_pos h]
      by_cases hfv : f (slice.get ⟨index + step, h⟩) = true
      · rw [if_pos hfv]
        have hlt : index + step < L := (hf _ h).mp hfv
        have hrec := ih (index + step) (step * 2) (by omega) (by omega) hlt
        refine ⟨hrec.1, hrec.2.1, ?_⟩
        obtain ⟨m, hm⟩ := hrec.2.2
        exact ⟨m + 1, by rw [hm]; ring⟩
      · rw [if_neg hfv]
        have : ¬ (index + step < L) := fun hc => hfv ((hf _ h).mpr hc)
        exact ⟨hidx, by omega, 0, by ring⟩
    · rw [dif_neg h]
      exact ⟨hidx, by omega, 0, by ring⟩

theorem advLoop2_zero {α : Type} (slice : List α) (f : α → Bool) :
    ∀ fuel index, advLoop2 slice f fuel index 0 = index := by
  intro fuel index
  cases fuel with
  | zero => rfl
  | succ n => rw [advLoop2, if_pos rfl]

theorem advLoop2_spec {α : Type} (slice : List α) (f : α → Bool) (L : Nat)
    (hL : L ≤ slice.length)
    (hf : ∀ j (hj : j < slice.length), (f (slice.get ⟨j, hj⟩) = true) ↔ j < L) :
    ∀ j fuel index, j < fuel → index < L → L ≤ index + 2 * 2 ^ j →
      advLoop2 slice f fuel index (2 ^ j) = L - 1 := by
  intro j
  induction j with
  | zero =>
    intro fuel index hfuel hidx hub
    cases fuel with
    | zero => omega
    | succ n =>
      rw [advLoop2]
      rw [if_neg (by norm_num : ¬ ((2:Nat) ^ 0 = 0))]
      simp only [pow_zero]
      have harg : (if h : index + 1 < slice.length then
          (if f (slice.get ⟨index + 1, h⟩) then index + 1 else index) else index) = L - 1 := by
        by_cases h : index + 1 < slice.length
        · rw [dif_pos h]
          by_cases hfv : f (slice.get ⟨index + 1, h⟩) = true
          · have := (hf _ h).mp hfv
            rw [if_pos hfv]; omega
          · have : ¬ (index + 1 < L) := fun hc => hfv ((hf _ h).mpr hc)
            rw [if_neg hfv]; omega
        · rw [dif_neg h]; omega
      rw [harg]
      have h02 : (1:Nat) / 2 = 0 := by norm_num
      rw [h02, advLoop2_zero]
  | succ m ih =>
    intro fuel index hfuel hidx hub
    cases fuel with
    | zero => omega
    | succ n =>
      rw [advLoop2]
      rw [if_neg (by positivity : ¬ ((2:Nat) ^ (m + 1) = 0))]
      have hdiv : (2:Nat) ^ (m + 1) / 2 = 2 ^ m := by
        rw [pow_succ]; omega
      rw [hdiv]
      by_cases h : index + 2 ^ (m + 1) < slice.length
      · rw [dif_pos h]
        by_cases hfv : f (slice.get ⟨index + 2 ^ (m + 1), h⟩) = true
        · rw [if_pos hfv]
          have hlt := (hf _ h).mp hfv
          exact ih n _ (by omega) hlt (by rw [pow_succ] at hub ⊢; omega)
        · rw [if_neg hfv]
          have : ¬ (index + 2 ^ (m + 1) < L) := fun hc => hfv ((hf _ h).mpr hc)
          exact ih n _ (by omega) hidx (by rw [pow_succ] at this; omega)
      · rw [dif_neg h]
        have : L ≤ index + 2 ^ (m + 1) := by omega
        exact ih n _ (by omega) hidx (by rw [pow_succ] at this; omega)

/-- Correctness of the galloping search: if `f` holds exactly on the first `L`
elements of `slice`, then `advance` returns `L`. -/
theorem advance_spec {α : Type} (slice : List α) (f : α → Bool) (L : Nat)
    (hL : L ≤ slice.length)
    (hf : ∀ j (hj : j < slice.length), (f (slice.get ⟨j, hj⟩) = true) ↔ j < L) :
    advance slice f = L := by
  rw [advance]
  by_cases h0 : 0 < slice.length
  · rw [dif_pos h0]
    by_cases hfv : f (slice.get ⟨0, h0⟩) = true
    · rw [if_pos hfv]
      have hpos : 0 < L := (hf _ h0).mp hfv
      have h1 := advLoop1_spec slice f L hL hf (slice.length + 1) 0 1 (by omega)
        (by omega) hpos
      obtain ⟨hl1, hl2, m, hm⟩ := h1
      show advLoop2 slice f (advLoop1 slice f (slice.length + 1) 0 1).2
        (advLoop1 slice f (slice.length + 1) 0 1).1
        ((advLoop1 slice f (slice.length + 1) 0 1).2 / 2) + 1 = L
      rcases m with _ | m2
      · simp only [pow_zero, mul_one] at hm
        rw [hm]
        have h02 : (1:Nat) / 2 = 0 := by norm_num
        rw [h02, advLoop2_zero]
        omega
      · rw [hm]
        have hdiv : (1 * 2 ^ (m2 + 1)) / 2 = 2 ^ m2 := by
          rw [pow_succ]; omega
        rw [hdiv]
        have hfuel : m2 < 1 * 2 ^ (m2 + 1) := by
          have := Nat.lt_two_pow m2
          have h2 : (2:Nat) ^ m2 ≤ 2 ^ (m2 + 1) := Nat.pow_le_pow_right (by omega) (by omega)
          omega
        have := advLoop2_spec slice f L hL hf m2 (1 * 2 ^ (m2 + 1)) _ hfuel hl1
          (by rw [hm, pow_succ] at hl2; omega)
        rw [this]
        omega
    · rw [if_neg hfv]
      have : ¬ (0 < L) := fun hc => hfv ((hf _ h0).mpr hc)
      omega
  · rw [dif_neg h0]
    omega

theorem takeWhile_length_le {α : Type} (l : List α) (f : α → Bool) :
    (l.takeWhile f).length ≤ l.length :=
  (List.takeWhile_prefix f).length_le

theorem f_true_of_lt_takeWhile_length {α : Type} (l : List α) (f : α → Bool)
    (j : Nat) (hj : j < l.length) (h : j < (l.takeWhile f).length) :
    f (l.get ⟨j, hj⟩) = true := by
  have h1 : (l.takeWhile f)[j] = l[j] := (List.takeWhile_prefix f).getElem h
  have h2 : f ((l.takeWhile f)[j]) = true :=
    List.mem_takeWhile_imp (List.getElem_mem h)
  rw [h1] at h2
  simpa using h2

theorem f_false_at_takeWhile_length_aux {α : Type} :
    ∀ (l : List α) (f : α → Bool) (j : Nat), j = (l.takeWhile f).length →
      ∀ (hj : j < l.length), f (l.get ⟨j, hj⟩) = false := by
  intro l
  induction l with
  | nil => intro f j hje hj; simp at hj
  | cons x xs ih =>
    intro f j hje hj
    by_cases hx : f x = true
    · have hrw : (x :: xs).takeWhile f = x :: xs.takeWhile f := by
        simp [List.takeWhile_cons, hx]
      rw [hrw] at hje
      simp only [List.length_cons] at hje
      subst hje
      have := ih f (xs.takeWhile f).length rfl (by simpa using hj)
      simpa using this
    · have hrw : (x :: xs).takeWhile f = [] := by
        simp [List.takeWhile_cons]
        simpa using hx
      rw [hrw] at hje
      simp only [List.length_nil] at hje
      subst hje
      simpa using hx

theorem f_false_at_takeWhile_length {α : Type} (l : List α) (f : α → Bool)
    (h : (l.takeWhile f).length < l.length) :
    f (l.get ⟨(l.takeWhile f).length, h⟩) = false :=
  f_false_at_takeWhile_length_aux l f _ rfl h

/-- `advance` on a slice whose predicate is downward closed (true entries form
a prefix) returns the length of that prefix. -/
theorem advance_eq_takeWhile_length {α : Type} (slice : List α) (f : α → Bool)
    (hmono : ∀ i j (hij : i ≤ j) (hj : j < slice.length),
      f (slice.get ⟨j, hj⟩) = true → f (slice.get ⟨i, by omega⟩) = true) :
    advance slice f = (slice.takeWhile f).length := by
  apply advance_spec slice f _ (takeWhile_length_le slice f)
  intro j hj
  constructor
  · intro hfv
    by_contra hcon
    push_neg at hcon
    have hlt : (slice.takeWhile f).length < slice.length := by omega
    have := f_false_at_takeWhile_length slice f hlt
    have := hmono (slice.takeWhile f).length j hcon hj hfv
    simp_all
  · intro hlt
    exact f_true_of_lt_takeWhile_length slice f j hj hlt

/-! ### EdgeList (src/wings_rule/index.rs, module `edge_list_neu`)

Values are embedded as `Nat` (`u32` node identifiers), weights as `Int`
(`i32`).  `values` holds the sorted runs, `bounds` their starting positions
(as in the source, from oldest to newest), `count` the accumulated weight,
`effort` the merge-effort account. -/

/-- One `(value, weight)` update. -/
abbrev Upd := Nat × Int

/-- The LSM-style list of updates (`EdgeList` in the source). -/
structure EdgeList where
  bounds : List Nat
  values : List Upd
  effort : Nat
  count : Int
deriving Repr, DecidableEq

namespace EdgeList

/-- `EdgeList::new`. -/
def new : EdgeList := ⟨[], [], 0, 0⟩

/-- `EdgeList::position`: the current write cursor, `values.len()`. -/
def position (l : EdgeList) : Nat := l.values.length

/-- `EdgeList::push`: append an update without sorting; adjust `count`. -/
def push (l : EdgeList) (u : Upd) : EdgeList :=
  { l with count := l.count + u.2, values := l.values ++ [u] }

/-- Push a list of updates in order. -/
def pushList (l : EdgeList) (us : List Upd) : EdgeList :=
  us.foldl push l

/-- The compaction sweep of `EdgeList::consolidate_tail` applied to a sorted
run: group consecutive equal values summing weights, and drop groups whose
total weight is zero.  (In the source this is the in-place cursor/swap loop
followed by `truncate`; on a sorted run, that loop computes exactly this.) -/
def consolidateRun : List Upd → List Upd
  | [] => []
  | u :: us => consolidateRunGo u us
where
  /-- Helper carrying the current accumulating entry. -/
  consolidateRunGo : Upd → List Upd → List Upd
  | cur, [] => if cur.2 ≠ 0 then [cur] else []
  | cur, x :: xs =>
    if x.1 = cur.1 then consolidateRunGo (cur.1, cur.2 + x.2) xs
    else if cur.2 ≠ 0 then cur :: consolidateRunGo x xs
    else consolidateRunGo x xs

/-- Comparison used by `sort_by(|x,y| x.0.cmp(&y.0))`: order by value.
The sort is embedded as `List.insertionSort`, which is a stable sort like
Rust's `sort_by`. -/
def updRel (x y : Upd) : Prop := x.1 ≤ y.1

instance : DecidableRel updRel := fun x y => Nat.decLe x.1 y.1

/-- `EdgeList::consolidate_tail`: sort the tail region (starting at the last
bound, or 0) by value, merge equal values, drop zero totals. -/
def consolidate_tail (l : EdgeList) : EdgeList :=
  let bound := l.bounds.getLastD 0
  { l with values :=
      l.values.take bound ++ consolidateRun ((l.values.drop bound).insertionSort updRel) }

/-- Two's-complement wrapping subtraction at 64 bits: the release-mode
behavior of the `usize` subtraction in `EdgeList::seal_from` (whose operands
underflow whenever the loop guard is reached, because `bounds` is
increasing). -/
def wrapSub (a b : Nat) : Nat := (2 ^ 64 + a - b) % 2 ^ 64

/-- The body of the boundary-popping loop of `EdgeList::seal_from`,
structurally recursive on a fuel (each iteration pops one element, so
`bounds.length` iterations can never be reached: the guard needs at least
two elements). -/
def popBoundsAux (vlen : Nat) : Nat → List Nat → List Nat
  | 0, bounds => bounds
  | fuel + 1, bounds =>
    if 2 ≤ bounds.length ∧
        wrapSub (bounds.getD (bounds.length - 2) 0) (bounds.getLastD 0)
          < 2 * (vlen - bounds.getLastD 0) then
      popBoundsAux vlen fuel bounds.dropLast
    else bounds

/-- The boundary-popping loop of `EdgeList::seal_from`:

    while self.bounds.len() >= 2 &&
          (self.bounds[n-2] - self.bounds[n-1] < 2 * (len - self.bounds[n-1]))
      { self.bounds.pop(); }

with the `usize` subtraction modeled by `wrapSub`. -/
def popBounds (vlen : Nat) (bounds : List Nat) : List Nat :=
  popBoundsAux vlen bounds.length bounds

/-- The bounds update of the merge branch of `EdgeList::seal_from`: pop
boundaries (see `popBounds`), then drop a sole boundary sitting before the
midpoint. -/
def sealMergeBounds (vlen : Nat) (bounds : List Nat) : List Nat :=
  let bounds1 := popBounds vlen bounds
  if bounds1.length = 1 ∧ bounds1.headD 0 < vlen / 2 then []
  else bounds1

/-- `EdgeList::seal_from`. -/
def seal_from (l : EdgeList) (pos : Nat) : EdgeList :=
  if pos < l.values.length then
    if l.values.length - pos < (pos - l.bounds.getLastD 0) / 2 then
      { l with bounds := l.bounds ++ [pos] }
    else
      consolidate_tail { l with bounds := sealMergeBounds l.values.length l.bounds }
  else l

/-- `EdgeList::proposals`: force a full consolidation when several runs
exist, and return the (state, slice) pair. -/
def proposals (l : EdgeList) : EdgeList × List Upd :=
  let l2 := if 0 < l.bounds.length then consolidate_tail { l with bounds := [] } else l
  (l2, l2.values)

/-- `EdgeList::expend`: add `effort` into the account, coalesce when the
account exceeds `values.len()`; note that the source resets
`self.effort = 0` at the end of the outer `if`, i.e. after every call with
nonempty `bounds`. -/
def expend (l : EdgeList) (effort : Nat) : EdgeList :=
  if 0 < l.bounds.length then
    { (if l.values.length < l.effort + effort
       then consolidate_tail { l with bounds := [] }
       else { l with effort := l.effort + effort })
      with effort := 0 }
  else l

end EdgeList

/-! ### Run geometry and the push/seal protocol -/

namespace EdgeList

/-- The lengths of the sorted runs of an `EdgeList`, oldest first: the
segments of `values` delimited by `0`, the entries of `bounds`, and
`values.len()`. -/
def runLengths (l : EdgeList) : List Nat :=
  let cuts := 0 :: (l.bounds ++ [l.values.length])
  (cuts.zip cuts.tail).map (fun c => c.2 - c.1)

/-- The run geometry claimed by the specification: either no boundary, or
every adjacent pair of runs has the older at least twice the younger, and a
sole remaining boundary sits at or past the midpoint of `values`. -/
def claimedGeometry (l : EdgeList) : Prop :=
  l.bounds = [] ∨
    (List.Chain' (fun o y => 2 * y ≤ o) (runLengths l) ∧
     (l.bounds.length = 1 → l.values.length / 2 ≤ l.bounds.headD 0))

instance (l : EdgeList) : Decidable (claimedGeometry l) :=
  inferInstanceAs (Decidable (l.bounds = [] ∨
    (List.Chain' (fun o y => 2 * y ≤ o) (runLengths l) ∧
     (l.bounds.length = 1 → l.values.length / 2 ≤ l.bounds.headD 0))))

/-- States reachable by the documented protocol: any number of rounds, each
recording `position()`, pushing a batch of updates, and sealing from the
recorded position. -/
inductive SealReach : EdgeList → Prop where
  | init : SealReach EdgeList.new
  | step (l : EdgeList) (us : List Upd) (h : SealReach l) :
      SealReach ((EdgeList.pushList l us).seal_from l.position)

/-- The geometry `seal_from` actually maintains: boundaries strictly
increase, stay inside `values`, and a sole boundary sits at or past the
midpoint. -/
def soundBounds (l : EdgeList) : Prop :=
  List.Chain' (· < ·) l.bounds ∧
  (∀ b ∈ l.bounds, b ≤ l.values.length) ∧
  (l.bounds.length = 1 → l.values.length / 2 ≤ l.bounds.headD 0)

end EdgeList

/-! ### Basic EdgeList lemmas -/

theorem consolidateRunGo_length_le (cur : Upd) :
    ∀ (us : List Upd), (EdgeList.consolidateRun.consolidateRunGo cur us).length ≤ us.length + 1 := by
  intro us
  induction us generalizing cur with
  | nil =>
    rw [EdgeList.consolidateRun.consolidateRunGo]
    split <;> simp
  | cons x xs ih =>
    rw [EdgeList.consolidateRun.consolidateRunGo]
    by_cases h1 : x.1 = cur.1
    · rw [if_pos h1]
      have := ih (cur.1, cur.2 + x.2)
      simp only [List.length_cons]
      omega
    · rw [if_neg h1]
      by_cases h2 : cur.2 ≠ 0
      · rw [if_pos h2]
        have := ih x
        simp only [List.length_cons]
        omega
      · rw [if_neg h2]
        have := ih x
        simp only [List.length_cons]
        omega

theorem consolidateRun_length_le (us : List Upd) :
    (EdgeList.consolidateRun us).length ≤ us.length := by
  cases us with
  | nil => simp [EdgeList.consolidateRun]
  | cons u us =>
    rw [EdgeList.consolidateRun]
    have := consolidateRunGo_length_le u us
    simp only [List.length_cons]
    omega

theorem pushList_values (l : EdgeList) (us : List Upd) :
    (EdgeList.pushList l us).values = l.values ++ us := by
  induction us generalizing l with
  | nil => simp [EdgeList.pushList]
  | cons u us ih =>
    show ((l.push u).pushList us).values = l.values ++ u :: us
    rw [ih]
    simp [EdgeList.push]

theorem pushList_bounds (l : EdgeList) (us : List Upd) :
    (EdgeList.pushList l us).bounds = l.bounds := by
  induction us generalizing l with
  | nil => simp [EdgeList.pushList]
  | cons u us ih =>
    show ((l.push u).pushList us).bounds = l.bounds
    rw [ih]
    simp [EdgeList.push]

theorem consolidate_tail_length_le (l : EdgeList) :
    (EdgeList.consolidate_tail l).values.length ≤ l.values.length := by
  rw [EdgeList.consolidate_tail]
  simp only [List.length_append, List.length_take]
  have h1 := consolidateRun_length_le
    ((l.values.drop (l.bounds.getLastD 0)).insertionSort EdgeList.updRel)
  have h2 : ((l.values.drop (l.bounds.getLastD 0)).insertionSort EdgeList.updRel).length
      = (l.values.drop (l.bounds.getLastD 0)).length :=
    (List.perm_insertionSort _ _).length_eq
  simp only [List.length_drop] at h2
  omega

theorem consolidate_tail_length_ge (l : EdgeList)
    (hb : l.bounds.getLastD 0 ≤ l.values.length) :
    l.bounds.getLastD 0 ≤ (EdgeList.consolidate_tail l).values.length := by
  rw [EdgeList.consolidate_tail]
  simp only [List.length_append, List.length_take]
  omega

theorem consolidate_tail_bounds (l : EdgeList) :
    (EdgeList.consolidate_tail l).bounds = l.bounds := rfl

theorem popBoundsAux_isPrefix (vlen : Nat) : ∀ (fuel : Nat) (bs : List Nat),
    EdgeList.popBoundsAux vlen fuel bs <+: bs := by
  intro fuel
  induction fuel with
  | zero =>
    intro bs
    exact List.prefix_refl bs
  | succ m ih =>
    intro bs
    rw [EdgeList.popBoundsAux]
    split
    · exact (ih bs.dropLast).trans (List.dropLast_prefix bs)
    · exact List.prefix_refl bs

theorem popBounds_isPrefix (vlen : Nat) (bs : List Nat) :
    EdgeList.popBounds vlen bs <+: bs :=
  popBoundsAux_isPrefix vlen bs.length bs

theorem mem_le_getLastD (bs : List Nat) (hchain : List.Chain' (· < ·) bs)
    (b : Nat) (hb : b ∈ bs) : b ≤ bs.getLastD 0 := by
  have hne : bs ≠ [] := List.ne_nil_of_mem hb
  have hp : List.Pairwise (· < ·) bs := List.chain'_iff_pairwise.mp hchain
  rw [List.getLastD_eq_getLast?, List.getLast?_eq_getLast bs hne]
  simp only [Option.getD_some]
  have hdec := List.dropLast_append_getLast hne
  rw [← hdec] at hb hp
  rw [List.pairwise_append] at hp
  rcases List.mem_append.mp hb with h1 | h2
  · exact le_of_lt (hp.2.2 b h1 _ (by simp))
  · simp only [List.mem_singleton] at h2
    omega

theorem getLastD_le_of_all_le (bs : List Nat) (n : Nat)
    (hmem : ∀ b ∈ bs, b ≤ n) : bs.getLastD 0 ≤ n := by
  cases hc : bs with
  | nil => simp
  | cons c cs =>
    apply hmem
    rw [List.getLastD_eq_getLast?, hc, List.getLast?_eq_getLast _ (by simp)]
    simp only [Option.getD_some]
    exact List.getLast_mem _

/-- Invariant preservation for a single protocol round (record the position,
push the batch, seal from the recorded position). -/
theorem sealStep_soundBounds (l : EdgeList) (us : List Upd)
    (ih : EdgeList.soundBounds l) :
    EdgeList.soundBounds ((EdgeList.pushList l us).seal_from l.position) := by
  obtain ⟨ihchain, ihmem, ihmid⟩ := ih
  have hpb : (EdgeList.pushList l us).bounds = l.bounds := pushList_bounds l us
  have hpv : (EdgeList.pushList l us).values = l.values ++ us := pushList_values l us
  have hplen : (EdgeList.pushList l us).values.length = l.values.length + us.length := by
    rw [hpv]; simp
  have hpos : l.position = l.values.length := rfl
  rw [EdgeList.seal_from, hpb, hplen, hpos]
  by_cases hlt : l.values.length < l.values.length + us.length
  · rw [if_pos hlt]
    by_cases hsmall : l.values.length + us.length - l.values.length
        < (l.values.length - l.bounds.getLastD 0) / 2
    · rw [if_pos hsmall]
      refine ⟨?_, ?_, ?_⟩
      · -- strictly increasing after appending the new boundary
        show List.Chain' (· < ·) (l.bounds ++ [l.values.length])
        rw [List.chain'_append]
        refine ⟨ihchain, List.chain'_singleton _, ?_⟩
        intro x hx y hy
        simp only [List.head?_cons, Option.mem_def, Option.some.injEq] at hy
        subst hy
        have hxlast : l.bounds.getLastD 0 = x := by
          simp only [Option.mem_def] at hx
          rw [List.getLastD_eq_getLast?, hx]
          rfl
        omega
      · intro b hb
        show b ≤ (EdgeList.pushList l us).values.length
        rw [hplen]
        rcases List.mem_append.mp hb with h1 | h2
        · have := ihmem b h1
          omega
        · simp only [List.mem_singleton] at h2
          omega
      · intro hlen1
        simp only [List.length_append, List.length_singleton] at hlen1
        have hbnil : l.bounds = [] := List.eq_nil_of_length_eq_zero (by omega)
        rw [hbnil] at hsmall
        simp only [List.getLastD_nil, Nat.sub_zero] at hsmall
        rw [hbnil]
        simp only [List.nil_append, List.headD_cons]
        show (EdgeList.pushList l us).values.length / 2 ≤ l.values.length
        rw [hplen]
        omega
    · rw [if_neg hsmall]
      have hpre : EdgeList.popBounds (l.values.length + us.length) l.bounds
          <+: l.bounds := popBounds_isPrefix _ _
      have hchain1 : List.Chain' (· < ·)
          (EdgeList.popBounds (l.values.length + us.length) l.bounds) :=
        ihchain.sublist hpre.sublist
      rw [EdgeList.sealMergeBounds]
      by_cases hdrop : (EdgeList.popBounds (l.values.length + us.length) l.bounds).length = 1 ∧
          (EdgeList.popBounds (l.values.length + us.length) l.bounds).headD 0
            < (l.values.length + us.length) / 2
      · rw [if_pos hdrop]
        exact ⟨List.chain'_nil, by simp [EdgeList.consolidate_tail], by
          simp [EdgeList.consolidate_tail]⟩
      · rw [if_neg hdrop]
        have hmem1 : ∀ b ∈ EdgeList.popBounds (l.values.length + us.length) l.bounds,
            b ≤ l.values.length := fun b hb => ihmem b (hpre.sublist.mem hb)
        have hlast1 : (EdgeList.popBounds (l.values.length + us.length) l.bounds).getLastD 0
            ≤ l.values.length := getLastD_le_of_all_le _ _ hmem1
        show EdgeList.soundBounds (EdgeList.consolidate_tail
          { EdgeList.pushList l us with
            bounds := EdgeList.popBounds (l.values.length + us.length) l.bounds })
        have hsb : ({ EdgeList.pushList l us with
            bounds := EdgeList.popBounds (l.values.length + us.length) l.bounds
            : EdgeList }).bounds
            = EdgeList.popBounds (l.values.length + us.length) l.bounds := rfl
        have hsv : ({ EdgeList.pushList l us with
            bounds := EdgeList.popBounds (l.values.length + us.length) l.bounds
            : EdgeList }).values.length = l.values.length + us.length := hplen
        have hlen_le := consolidate_tail_length_le
          { EdgeList.pushList l us with
            bounds := EdgeList.popBounds (l.values.length + us.length) l.bounds }
        rw [hsv] at hlen_le
        have hlen_ge := consolidate_tail_length_ge
          { EdgeList.pushList l us with
            bounds := EdgeList.popBounds (l.values.length + us.length) l.bounds }
          (by rw [hsb, hsv]; omega)
        rw [hsb] at hlen_ge
        have hcb : (EdgeList.consolidate_tail
            { EdgeList.pushList l us with
              bounds := EdgeList.popBounds (l.values.length + us.length) l.bounds }).bounds
            = EdgeList.popBounds (l.values.length + us.length) l.bounds := rfl
        refine ⟨by rw [hcb]; exact hchain1, ?_, ?_⟩
        · intro b hb
          rw [hcb] at hb
          have h1 := mem_le_getLastD _ hchain1 b hb
          exact le_trans h1 hlen_ge
        · rw [hcb]
          intro hlen1
          have hnot : ¬ ((EdgeList.popBounds (l.values.length + us.length) l.bounds).headD 0
              < (l.values.length + us.length) / 2) := fun hcon => hdrop ⟨hlen1, hcon⟩
          omega
  · rw [if_neg hlt]
    have hus : us = [] := List.eq_nil_of_length_eq_zero (by omega)
    subst hus
    exact ⟨by rw [hpb]; exact ihchain,
           by rw [hpb, hplen]; simpa using ihmem,
           by rw [hpb, hplen]; simpa using ihmid⟩

theorem sealReach_soundBounds :
    ∀ l, EdgeList.SealReach l → EdgeList.soundBounds l := by
  intro l h
  induction h with
  | init =>
    exact ⟨List.chain'_nil, by simp [EdgeList.new], by simp [EdgeList.new]⟩
  | step l us hreach ih => exact sealStep_soundBounds l us ih

/-! ### Concrete protocol traces -/

/-- Four pushes, then `seal_from(0)`. -/
def c1A : EdgeList := EdgeList.pushList EdgeList.new [(10,1),(20,1),(30,1),(40,1)]
/-- State after the first round. -/
def c1B : EdgeList := c1A.seal_from EdgeList.new.position
/-- One more push, then `seal_from(4)`. -/
def c1C : EdgeList := (EdgeList.pushList c1B [(50,1)]).seal_from c1B.position
/-- Three more pushes, then `seal_from(5)`: the resulting runs have lengths
4 and 4 with `bounds = [4]`. -/
def c1D : EdgeList := (EdgeList.pushList c1C [(60,1),(70,1),(80,1)]).seal_from c1C.position

/-- `C1`, counterexample: a protocol-reachable state, right after a
`seal_from`, whose adjacent runs (lengths 4 and 4) violate the claimed
older ≥ 2 × younger geometry: the claimed invariant is false. -/
theorem claim_C1_counterexample :
    EdgeList.SealReach c1D ∧ ¬ EdgeList.claimedGeometry c1D := by
  constructor
  · exact EdgeList.SealReach.step c1C [(60,1),(70,1),(80,1)]
      (EdgeList.SealReach.step c1B [(50,1)]
        (EdgeList.SealReach.step EdgeList.new [(10,1),(20,1),(30,1),(40,1)]
          EdgeList.SealReach.init))
  · intro h
    rcases h with h1 | ⟨h2, h3⟩
    · exact absurd h1 (by decide)
    · have hrl : EdgeList.runLengths c1D = [4, 4] := by decide
      rw [hrl] at h2
      have := (List.chain'_cons.mp h2).1
      omega

/-- `C1`, amended: for every `EdgeList` built by the push/seal protocol
(each `seal_from(pos)` using the position returned before the pushes of that
run), after every `seal_from` the boundary list is strictly increasing with
every boundary at most `values.len()`, and if exactly one boundary remains
it sits at or past the midpoint of `values`.  (The claimed adjacent-run
older ≥ 2 × younger geometry is **not** maintained — see the
counterexample — and the boundary-popping loop of `seal_from` compares run
lengths with a reversed, underflowing `usize` subtraction, modeled here by
its wrapping release-mode semantics.) -/
theorem claim_C1 : ∀ l, EdgeList.SealReach l → EdgeList.soundBounds l :=
  sealReach_soundBounds

/-- Witness for `claim_C1` at a concrete protocol trace. -/
theorem claim_C1_witness : EdgeList.soundBounds c1D :=
  claim_C1 c1D
    (EdgeList.SealReach.step c1C [(60,1),(70,1),(80,1)]
      (EdgeList.SealReach.step c1B [(50,1)]
        (EdgeList.SealReach.step EdgeList.new [(10,1),(20,1),(30,1),(40,1)]
          EdgeList.SealReach.init)))

/-- C5 trace: push (1,+1)(2,+1)(3,+1)(4,+1), `seal_from(0)`. -/
def c5Stage1 : EdgeList :=
  (EdgeList.pushList EdgeList.new [(1,1),(2,1),(3,1),(4,1)]).seal_from 0
/-- C5 trace: push (5,+1), `seal_from(4)`. -/
def c5Stage2 : EdgeList := (c5Stage1.push (5,1)).seal_from 4
/-- C5 trace: push (6,+1)(7,+1)(8,+1), `seal_from(5)`. -/
def c5Stage3 : EdgeList :=
  (EdgeList.pushList c5Stage2 [(6,1),(7,1),(8,1)]).seal_from 5

/-- `C5`, counterexample: after the third seal the claim expects `bounds`
empty, but the code keeps the boundary at 4 (`4 < 8/2` is false, so the
sole boundary is *not* dropped). -/
theorem claim_C5_counterexample : ¬ (c5Stage3.bounds = []) := by decide

/-- `C5`, amended scenario trace: after `seal_from(4)`, `bounds == [4]` and
`count == 5`; after the final `seal_from(5)`, `bounds` is still `[4]` (one
boundary at the midpoint), `count == 8`, and the tail run `values[4..]` is
consolidated, leaving the full vector `[(1,1),…,(8,1)]` in two sorted runs. -/
theorem claim_C5 :
    c5Stage2.bounds = [4] ∧ c5Stage2.count = 5 ∧
    c5Stage3.bounds = [4] ∧ c5Stage3.count = 8 ∧
    c5Stage3.values = [(1,1),(2,1),(3,1),(4,1),(5,1),(6,1),(7,1),(8,1)] := by
  decide

/-! ### C9: count identity -/

/-- Sum of the weights currently stored in `values`. -/
def valuesWeight (l : EdgeList) : Int := (l.values.map Prod.snd).sum

/-- One call against an `EdgeList`: push, seal, expend, or proposals. -/
inductive EOp where
  | push (u : Upd)
  | sealFrom (pos : Nat)
  | expend (e : Nat)
  | proposals
deriving Repr

/-- Apply one call. -/
def applyOp (l : EdgeList) : EOp → EdgeList
  | .push u => l.push u
  | .sealFrom pos => l.seal_from pos
  | .expend e => l.expend e
  | .proposals => (l.proposals).1

/-- Apply a sequence of calls. -/
def applyOps (l : EdgeList) (ops : List EOp) : EdgeList := ops.foldl applyOp l

/-- The weight contributed to `count` by one call: a push adds its weight. -/
def opPushWeight : EOp → Int
  | .push u => u.2
  | _ => 0

/-- Sum of the weights of all updates pushed by a call sequence. -/
def pushedWeight (ops : List EOp) : Int := (ops.map opPushWeight).sum

theorem consolidateRunGo_weightSum (cur : Upd) : ∀ (us : List Upd),
    ((EdgeList.consolidateRun.consolidateRunGo cur us).map Prod.snd).sum
      = cur.2 + ((us.map Prod.snd)).sum := by
  intro us
  induction us generalizing cur with
  | nil =>
    rw [EdgeList.consolidateRun.consolidateRunGo]
    split
    · simp
    · rename_i h
      simp only [ne_eq, Decidable.not_not] at h
      simp [h]
  | cons x xs ih =>
    rw [EdgeList.consolidateRun.consolidateRunGo]
    by_cases h1 : x.1 = cur.1
    · rw [if_pos h1, ih]
      simp only [List.map_cons, List.sum_cons]
      ring
    · rw [if_neg h1]
      by_cases h2 : cur.2 ≠ 0
      · rw [if_pos h2]
        simp only [List.map_cons, List.sum_cons, ih]
      · rw [if_neg h2]
        simp only [ne_eq, Decidable.not_not] at h2
        rw [ih]
        simp [h2]

theorem consolidateRun_weightSum (us : List Upd) :
    ((EdgeList.consolidateRun us).map Prod.snd).sum = (us.map Prod.snd).sum := by
  cases us with
  | nil => simp [EdgeList.consolidateRun]
  | cons u us =>
    rw [EdgeList.consolidateRun, consolidateRunGo_weightSum]
    simp

theorem consolidate_tail_valuesWeight (l : EdgeList) :
    valuesWeight (EdgeList.consolidate_tail l) = valuesWeight l := by
  rw [EdgeList.consolidate_tail, valuesWeight, valuesWeight]
  simp only [List.map_append, List.sum_append]
  rw [consolidateRun_weightSum]
  have hperm : ((l.values.drop (l.bounds.getLastD 0)).insertionSort EdgeList.updRel).Perm
      (l.values.drop (l.bounds.getLastD 0)) := List.perm_insertionSort _ _
  rw [(hperm.map Prod.snd).sum_eq]
  rw [← List.sum_append, ← List.map_append, List.take_append_drop]

theorem consolidate_tail_count (l : EdgeList) :
    (EdgeList.consolidate_tail l).count = l.count := rfl

theorem seal_from_valuesWeight (l : EdgeList) (pos : Nat) :
    valuesWeight (l.seal_from pos) = valuesWeight l := by
  rw [EdgeList.seal_from]
  split
  · split
    · rfl
    · rw [consolidate_tail_valuesWeight]
      rfl
  · rfl

theorem seal_from_count (l : EdgeList) (pos : Nat) :
    (l.seal_from pos).count = l.count := by
  rw [EdgeList.seal_from]
  split
  · split
    · rfl
    · rw [consolidate_tail_count]
  · rfl

theorem expend_valuesWeight (l : EdgeList) (e : Nat) :
    valuesWeight (l.expend e) = valuesWeight l := by
  rw [EdgeList.expend]
  split
  · split
    · rw [show valuesWeight { EdgeList.consolidate_tail { l with bounds := [] } with effort := 0 }
          = valuesWeight (EdgeList.consolidate_tail { l with bounds := [] }) from rfl]
      rw [consolidate_tail_valuesWeight]
      rfl
    · rfl
  · rfl

theorem expend_count (l : EdgeList) (e : Nat) :
    (l.expend e).count = l.count := by
  rw [EdgeList.expend]
  split
  · split <;> rfl
  · rfl

theorem proposals_valuesWeight (l : EdgeList) :
    valuesWeight (l.proposals).1 = valuesWeight l := by
  rw [EdgeList.proposals]
  split
  · rw [consolidate_tail_valuesWeight]
    rfl
  · rfl

theorem proposals_count (l : EdgeList) :
    ((l.proposals).1).count = l.count := by
  rw [EdgeList.proposals]
  split
  · rw [consolidate_tail_count]
  · rfl

theorem applyOp_count (l : EdgeList) (op : EOp) :
    (applyOp l op).count = l.count + opPushWeight op := by
  cases op with
  | push u => rfl
  | sealFrom pos =>
    show (l.seal_from pos).count = l.count + 0
    rw [seal_from_count]; ring
  | expend e =>
    show (l.expend e).count = l.count + 0
    rw [expend_count]; ring
  | proposals =>
    show ((l.proposals).1).count = l.count + 0
    rw [proposals_count]; ring

theorem applyOp_weightInv (l : EdgeList) (op : EOp) :
    valuesWeight (applyOp l op) - (applyOp l op).count = valuesWeight l - l.count := by
  cases op with
  | push u =>
    show valuesWeight (l.push u) - (l.push u).count = _
    rw [EdgeList.push, valuesWeight, valuesWeight]
    simp only []
    simp only [List.map_append, List.sum_append, List.map_cons, List.map_nil,
      List.sum_cons, List.sum_nil]
    ring_nf
  | sealFrom pos =>
    show valuesWeight (l.seal_from pos) - (l.seal_from pos).count = _
    rw [seal_from_count, seal_from_valuesWeight]
  | expend e =>
    show valuesWeight (l.expend e) - (l.expend e).count = _
    rw [expend_count, expend_valuesWeight]
  | proposals =>
    show valuesWeight (l.proposals).1 - ((l.proposals).1).count = _
    rw [proposals_count, proposals_valuesWeight]

theorem applyOps_count (ops : List EOp) : ∀ (l : EdgeList),
    (applyOps l ops).count = l.count + pushedWeight ops := by
  induction ops with
  | nil =>
    intro l
    show l.count = l.count + (0:Int)
    ring
  | cons op ops ih =>
    intro l
    show (applyOps (applyOp l op) ops).count = l.count + pushedWeight (op :: ops)
    rw [ih, applyOp_count]
    have hc : pushedWeight (op :: ops) = opPushWeight op + pushedWeight ops := by
      rw [pushedWeight, pushedWeight]
      simp
    rw [hc]
    ring

theorem applyOps_weightInv (ops : List EOp) : ∀ (l : EdgeList),
    valuesWeight (applyOps l ops) - (applyOps l ops).count = valuesWeight l - l.count := by
  induction ops with
  | nil => intro l; rfl
  | cons op ops ih =>
    intro l
    show valuesWeight (applyOps (applyOp l op) ops)
      - (applyOps (applyOp l op) ops).count = valuesWeight l - l.count
    rw [ih, applyOp_weightInv]

/-- `C9`: for every sequence of push, seal_from, expend, and proposals calls
starting from an empty EdgeList, `count()` equals the sum of the weights of
all updates ever pushed; and immediately after a `proposals()` call,
`count()` also equals the sum of the weights in the returned slice. -/
theorem claim_C9 : ∀ (ops : List EOp),
    (applyOps EdgeList.new ops).count = pushedWeight ops ∧
    (((applyOps EdgeList.new ops).proposals).2.map Prod.snd).sum
      = (((applyOps EdgeList.new ops).proposals).1).count ∧
    (((applyOps EdgeList.new ops).proposals).1).count = pushedWeight ops := by
  intro ops
  have h1 := applyOps_count ops EdgeList.new
  have h2 := applyOps_weightInv ops EdgeList.new
  have hnew : EdgeList.new.count = 0 ∧ valuesWeight EdgeList.new = 0 := by
    constructor <;> rfl
  have hcount : (applyOps EdgeList.new ops).count = pushedWeight ops := by
    rw [h1, hnew.1]; ring
  have hvw : valuesWeight (applyOps EdgeList.new ops) = (applyOps EdgeList.new ops).count := by
    rw [hnew.1, hnew.2] at h2
    omega
  refine ⟨hcount, ?_, ?_⟩
  · have hslice : ((applyOps EdgeList.new ops).proposals).2
        = (((applyOps EdgeList.new ops).proposals).1).values := by
      rw [EdgeList.proposals]
    rw [hslice]
    have : valuesWeight ((applyOps EdgeList.new ops).proposals).1
        = (((applyOps EdgeList.new ops).proposals).1).count := by
      rw [proposals_valuesWeight, proposals_count, hvw]
    exact this
  · rw [proposals_count, hcount]

/-- C8 state: five single-weight values with one run boundary at 4. -/
def c8State : EdgeList :=
  (((EdgeList.pushList EdgeList.new [(2,1),(4,1),(6,1),(8,1)]).seal_from 0).push (10,1)).seal_from 4

/-- `C8`: the source resets `self.effort = 0` after *every* `expend` call
with nonempty bounds, so effort never accumulates across calls: two
`expend(3)` calls on a 5-element list (cumulative 6 > 5) do **not** coalesce,
while a single `expend(6)` does.  This contradicts the source's own
documentation of the `effort` field ("records cumulative effort"). -/
theorem claim_C8 :
    c8State.values.length = 5 ∧ c8State.bounds = [4] ∧
    (c8State.expend 3).effort = 0 ∧
    ((c8State.expend 3).expend 3).bounds = [4] ∧
    (c8State.expend 6).bounds = [] := by
  decide

/-! ### Prefixes (src/lib.rs, `Indexable` impl for `Vec<Node>`) -/

/-- A prefix is an ordered sequence of nodes. -/
abbrev Pfx := List Nat

/-- `get_src`: position 0 of the prefix (the root edge's source). -/
def getSrc (p : Pfx) : Nat := p.getD 0 0

/-- `get_dst`: position 1 of the prefix (the root edge's destination). -/
def getDst (p : Pfx) : Nat := p.getD 1 0

/-- `find`: membership test (`Vec::contains`). -/
def findIn (p : Pfx) (v : Nat) : Bool := p.contains v

/-! ### CompactIndex (src/wings_rule/index.rs, module `compact`)

Keys and values are `u32` node identifiers, embedded as `Nat`; the
key table stores `(key, exclusive upper bound into vals)`. -/

/-- The compacted read-only snapshot. -/
structure CompactIndex where
  keys : List (Nat × Nat)
  vals : List Nat
deriving Repr, DecidableEq

namespace CompactIndex

/-- `CompactIndex::values_from`: gallop the cursor to the first key ≥ the
target; if it matches, return the value slice and advance the cursor past
the entry.  Returns the slice together with the updated cursor.  (The
source's `assert!(lower < upper)` always holds for tables built by `load`,
whose offsets strictly increase; the model returns the — then empty — slice
unconditionally.) -/
def values_from (c : CompactIndex) (key : Nat) (cursor : Nat) : List Nat × Nat :=
  if cursor < c.keys.length then
    let cursor1 := cursor + advance (c.keys.drop cursor) (fun x => x.1 < key)
    if cursor1 < c.keys.length ∧ (c.keys.getD cursor1 (0, 0)).1 = key then
      let lower := if cursor1 = 0 then 0 else (c.keys.getD (cursor1 - 1) (0, 0)).2
      let upper := (c.keys.getD cursor1 (0, 0)).2
      ((c.vals.drop lower).take (upper - lower), cursor1 + 1)
    else ([], cursor1)
  else ([], cursor)

end CompactIndex

/-! ### Unsorted diffs (src/wings_rule/index.rs, module `unsorted`) -/

/-- One uncommitted diff `(key, value, time, weight)`. -/
structure Diff where
  k : Nat
  v : Nat
  t : Nat
  w : Int
deriving Repr, DecidableEq

/-- The `(k, v)`-lexicographic order used by `sort_by` in
`Unsorted::extend`. -/
def diffRel (x y : Diff) : Prop := x.k < y.k ∨ (x.k = y.k ∧ x.v ≤ y.v)

instance : DecidableRel diffRel := fun x y => by
  unfold diffRel
  infer_instance

/-- The unsorted buffer of uncommitted updates. -/
structure Unsorted where
  updates : List Diff
  min_time : Option Nat
deriving Repr, DecidableEq

namespace Unsorted

/-- `Unsorted::values_from`: two galloping steps (`< key`, then `≤ key`)
return the slice for exactly `key`; the cursor advances past it. -/
def values_from (u : Unsorted) (key : Nat) (cursor : Nat) : List Diff × Nat :=
  let c1 := cursor + advance (u.updates.drop cursor) (fun x => x.k < key)
  let step := advance (u.updates.drop c1) (fun x => x.k ≤ key)
  ((u.updates.drop c1).take step, c1 + step)

/-- `Unsorted::extend`: append the batch at time `time`, re-sort the whole
buffer by `(k, v)` (a stable sort in the source, embedded as
`insertionSort`), and lower `min_time`. -/
def extend (u : Unsorted) (time : Nat) (items : List ((Nat × Nat) × Int)) : Unsorted :=
  { updates := (u.updates ++ items.map (fun kv => (⟨kv.1.1, kv.1.2, time, kv.2⟩ : Diff))).insertionSort diffRel,
    min_time :=
      match u.min_time with
      | none => some time
      | some t0 => if time < t0 then some time else some t0 }

end Unsorted

/-! ### Index (src/wings_rule/index.rs, `Index<Key, T>`)

The `HashMap<Key, EdgeList>` is embedded as an association list with
first-match lookup; `edgesSet` models in-place mutation through an
`entry()` handle (replace if present, append if absent). -/

/-- `HashMap::get`. -/
def edgesGet (es : List (Nat × EdgeList)) (k : Nat) : Option EdgeList :=
  es.lookup k

/-- Write-back of a (possibly newly inserted) entry. -/
def edgesSet : List (Nat × EdgeList) → Nat → EdgeList → List (Nat × EdgeList)
  | [], k, e => [(k, e)]
  | (k0, e0) :: rest, k, e =>
    if k0 = k then (k, e) :: rest else (k0, e0) :: edgesSet rest k e

/-- The multiversion index: compacted snapshot, committed LSM edge lists,
uncommitted diff buffer. -/
structure Index where
  compact : CompactIndex
  edges : List (Nat × EdgeList)
  diffs : Unsorted
deriving Repr, DecidableEq

/-- `Index::new`. -/
def Index.new : Index := ⟨⟨[], []⟩, [], ⟨[], none⟩⟩

/-- `Index::update`: drain a batch of `((key, value), weight)` updates into
the diff buffer at the given time. -/
def Index.update (s : Index) (time : Nat) (ups : List ((Nat × Nat) × Int)) : Index :=
  { s with diffs := s.diffs.extend time ups }

/-! ### merge_to (src/wings_rule/index.rs, `Index::merge_to`) -/

/-- The inner loop of `merge_to` for one equal-key run: push every diff with
`t ≤ time` into the edge list (zeroing the diff's weight in place), leave
the rest. -/
def mergeRun (time : Nat) : EdgeList → List Diff → EdgeList × List Diff
  | e, [] => (e, [])
  | e, d :: ds =>
    if d.t ≤ time then
      let r := mergeRun time (e.push (d.v, d.w)) ds
      (r.1, { d with w := 0 } :: r.2)
    else
      let r := mergeRun time e ds
      (r.1, d :: r.2)

/-- The outer loop of `merge_to`: group the diff buffer into maximal
equal-key runs; for each, fetch (or insert) the key's edge list, remember
its position, push the run's ripe diffs, and seal.  Structural recursion on
a fuel; `merge_to` passes the buffer length, which the grouping (each group
nonempty) can never exhaust. -/
def mergeLoop (time : Nat) :
    Nat → List (Nat × EdgeList) → List Diff → List (Nat × EdgeList) × List Diff
  | 0, es, ds => (es, ds)
  | _ + 1, es, [] => (es, [])
  | fuel + 1, es, d :: ds =>
    let k := d.k
    let e := (edgesGet es k).getD EdgeList.new
    let prior := e.position
    let run := (d :: ds).takeWhile (fun x => x.k = k)
    let rest := (d :: ds).dropWhile (fun x => x.k = k)
    let r := mergeRun time e run
    let es2 := edgesSet es k (r.1.seal_from prior)
    let r2 := mergeLoop time fuel es2 rest
    (r2.1, r.2 ++ r2.2)

/-- `min_time` recomputation: the minimum time among the remaining diffs. -/
def minTimeOf (ds : List Diff) : Option Nat := (ds.map Diff.t).min?

/-- `Index::merge_to`: commit every diff with time ≤ `time` into the per-key
edge lists, drop zero-weight diffs, refresh `min_time`. -/
def Index.merge_to (s : Index) (time : Nat) : Index :=
  let r := mergeLoop time s.diffs.updates.length s.edges s.diffs.updates
  let ds2 := r.2.filter (fun d => d.w ≠ 0)
  { s with edges := r.1, diffs := { updates := ds2, min_time := minTimeOf ds2 } }

/-! ### count (src/wings_rule/index.rs, `Index::count`) -/

/-- The `as u64` cast applied to `EdgeList::count` (an `i32`): negative
counts wrap to huge unsigned values. -/
def intToU64 (i : Int) : Nat := (i % 2 ^ 64).toNat

/-- The per-group loop of `Index::count`, carrying the compact and diff
cursors. -/
def countLoop {W : Type} (s : Index) (f : Pfx → Nat) (possible : Bool) (ident : Nat) :
    Nat → Nat → Nat → List (Pfx × Nat × Nat × W) → List (Pfx × Nat × Nat × W)
  | 0, _, _, data => data
  | _ + 1, _, _, [] => []
  | fuel + 1, ccur, dcur, x :: xs =>
    let key := f x.1
    let cres := s.compact.values_from key ccur
    let ecount : Nat :=
      match edgesGet s.edges key with
      | some e => intToU64 e.count
      | none => 0
    let dres := if possible then s.diffs.values_from key dcur else ([], dcur)
    let cnt := cres.1.length + ecount + dres.1.length
    let group := (x :: xs).takeWhile (fun y => f y.1 = key)
    let rest := (x :: xs).dropWhile (fun y => f y.1 = key)
    group.map (fun y => if cnt < y.2.1 then (y.1, cnt, ident, y.2.2.2) else y)
      ++ countLoop s f possible ident fuel cres.2 dres.2 rest

/-- The `possible_diffs` flag of `Index::count`: the diff buffer matters only
when its minimal time has reached `start_time`. -/
def countPossible (s : Index) (start : Nat) : Bool :=
  match s.diffs.min_time with
  | some t => decide (t ≤ start)
  | none => false

/-- `Index::count`: sort by key (a stable sort in the source), then process
equal-key groups, overwriting `(count, ident)` whenever the index's bound
improves on the recorded one. -/
def Index.count {W : Type} (s : Index) (data : List (Pfx × Nat × Nat × W))
    (f : Pfx → Nat) (start : Nat) (ident : Nat) : List (Pfx × Nat × Nat × W) :=
  let sorted := data.insertionSort (fun x y => f x.1 ≤ f y.1)
  countLoop s f (countPossible s start) ident sorted.length 0 0 sorted

/-! ### C4: merge coherence -/

theorem mergeRun_fst (time : Nat) : ∀ (run : List Diff) (e : EdgeList),
    (mergeRun time e run).1
      = EdgeList.pushList e ((run.filter (fun d => d.t ≤ time)).map (fun d => (d.v, d.w))) := by
  intro run
  induction run with
  | nil => intro e; rfl
  | cons d ds ih =>
    intro e
    rw [mergeRun]
    by_cases h : d.t ≤ time
    · rw [if_pos h]
      simp only [List.filter_cons, decide_eq_true_eq, h, if_pos h]
      rw [ih]
      simp [EdgeList.pushList, h]
    · rw [if_neg h]
      simp only [List.filter_cons, decide_eq_true_eq]
      rw [if_neg h]
      exact ih e

theorem mergeRun_snd (time : Nat) : ∀ (run : List Diff) (e : EdgeList),
    (mergeRun time e run).2
      = run.map (fun d => if d.t ≤ time then { d with w := 0 } else d) := by
  intro run
  induction run with
  | nil => intro e; rfl
  | cons d ds ih =>
    intro e
    rw [mergeRun]
    by_cases h : d.t ≤ time
    · rw [if_pos h]
      simp only [List.map_cons, if_pos h]
      rw [ih]
    · rw [if_neg h]
      simp only [List.map_cons, if_neg h]
      rw [ih]

theorem edgesGet_edgesSet_self (k : Nat) (e : EdgeList) :
    ∀ (es : List (Nat × EdgeList)), edgesGet (edgesSet es k e) k = some e := by
  intro es
  induction es with
  | nil => simp [edgesSet, edgesGet, List.lookup]
  | cons he rest ih =>
    rw [edgesSet]
    by_cases h : he.1 = k
    · rw [if_pos h]
      simp [edgesGet, List.lookup]
    · rw [if_neg h]
      rw [edgesGet, List.lookup]
      have hbeq : (k == he.1) = false := by
        simp only [beq_eq_false_iff_ne, ne_eq]
        exact fun hc => h hc.symm
      rw [hbeq]
      exact ih

theorem edgesGet_edgesSet_other (k k2 : Nat) (e : EdgeList) (hne : k2 ≠ k) :
    ∀ (es : List (Nat × EdgeList)), edgesGet (edgesSet es k e) k2 = edgesGet es k2 := by
  intro es
  induction es with
  | nil =>
    simp only [edgesSet, edgesGet, List.lookup]
    have hbeq : (k2 == k) = false := by simp [hne]
    rw [hbeq]
  | cons he rest ih =>
    rw [edgesSet]
    by_cases h : he.1 = k
    · rw [if_pos h]
      rw [edgesGet, edgesGet, List.lookup, List.lookup]
      have h1 : (k2 == k) = false := by simp [hne]
      have h2 : (k2 == he.1) = false := by simp [h, hne]
      rw [h1, h2]
    · rw [if_neg h]
      rw [edgesGet, edgesGet, List.lookup, List.lookup]
      by_cases hk2 : k2 = he.1
      · have : (k2 == he.1) = true := by simp [hk2]
        rw [this]
      · have : (k2 == he.1) = false := by simp [hk2]
        rw [this]
        exact ih

/-- Decomposition of a key-grouped (pairwise nondecreasing by key) diff list
at its first key group. -/
theorem group_decomp (d : Diff) (ds : List Diff)
    (hpair : List.Pairwise (fun x y : Diff => x.k ≤ y.k) (d :: ds)) :
    (∀ x ∈ (d :: ds).takeWhile (fun x => x.k = d.k), x.k = d.k) ∧
    (∀ x ∈ (d :: ds).dropWhile (fun x => x.k = d.k), d.k < x.k) ∧
    List.Pairwise (fun x y : Diff => x.k ≤ y.k)
      ((d :: ds).dropWhile (fun x => x.k = d.k)) ∧
    ((d :: ds).dropWhile (fun x => x.k = d.k)).length ≤ ds.length := by
  refine ⟨?_, ?_, ?_, ?_⟩
  · intro x hx
    have := List.mem_takeWhile_imp hx
    simpa using this
  · intro x hx
    have hmem : x ∈ d :: ds := (List.dropWhile_sublist _).mem hx
    have hle : d.k ≤ x.k := by
      rcases List.mem_cons.mp hmem with h | h
      · rw [h]
      · exact List.rel_of_pairwise_cons hpair h
    -- the head of the dropped part fails the predicate, and every element is
    -- at least the head (pairwise on the suffix)
    have hdp : List.Pairwise (fun x y : Diff => x.k ≤ y.k)
        ((d :: ds).dropWhile (fun x => x.k = d.k)) :=
      List.Pairwise.sublist (List.dropWhile_sublist _) hpair
    cases hhead : ((d :: ds).dropWhile (fun x => x.k = d.k)) with
    | nil => rw [hhead] at hx; simp at hx
    | cons c cs =>
      have hc : (fun x : Diff => decide (x.k = d.k)) c = false := by
        have := List.head?_dropWhile_not (fun x : Diff => decide (x.k = d.k)) (d :: ds)
        rw [hhead] at this
        simpa using this
      have hcne : c.k ≠ d.k := by simpa using hc
      have hcle : d.k ≤ c.k := by
        have hcmem : c ∈ d :: ds := (List.dropWhile_sublist _).mem (by rw [hhead]; simp)
        rcases List.mem_cons.mp hcmem with h | h
        · rw [h]
        · exact List.rel_of_pairwise_cons hpair h
      have hclt : d.k < c.k := by omega
      rw [hhead] at hx hdp
      rcases List.mem_cons.mp hx with rfl | h
      · omega
      · have := List.rel_of_pairwise_cons hdp h
        omega
  · exact List.Pairwise.sublist (List.dropWhile_sublist _) hpair
  · have : (d :: ds).dropWhile (fun x => x.k = d.k) = ds.dropWhile (fun x => x.k = d.k) := by
      rw [List.dropWhile_cons]
      simp
    rw [this]
    exact (List.dropWhile_sublist _).length_le

theorem mergeLoop_spec (time : Nat) :
    ∀ fuel (ds : List Diff) (es : List (Nat × EdgeList)),
      ds.length ≤ fuel → List.Pairwise (fun x y : Diff => x.k ≤ y.k) ds →
      ((mergeLoop time fuel es ds).2
        = ds.map (fun d => if d.t ≤ time then { d with w := 0 } else d)) ∧
      (∀ k, k ∈ ds.map Diff.k →
        edgesGet (mergeLoop time fuel es ds).1 k
          = some ((EdgeList.pushList ((edgesGet es k).getD EdgeList.new)
              ((ds.filter (fun d => decide (d.k = k) && decide (d.t ≤ time))).map
                (fun d => (d.v, d.w)))).seal_from
              ((edgesGet es k).getD EdgeList.new).position)) ∧
      (∀ k, k ∉ ds.map Diff.k →
        edgesGet (mergeLoop time fuel es ds).1 k = edgesGet es k) := by
  intro fuel
  induction fuel with
  | zero =>
    intro ds es hlen hpair
    have hds : ds = [] := List.eq_nil_of_length_eq_zero (by omega)
    subst hds
    exact ⟨rfl, by simp, fun k hk => rfl⟩
  | succ fuel ih =>
    intro ds es hlen hpair
    cases ds with
    | nil => exact ⟨rfl, by simp, fun k hk => rfl⟩
    | cons d ds2 =>
      obtain ⟨hrunmem, hrestlt, hrestpair, hrestlen⟩ := group_decomp d ds2 hpair
      have hstep : mergeLoop time (fuel + 1) es (d :: ds2)
          = ((mergeLoop time fuel
                (edgesSet es d.k
                  ((mergeRun time ((edgesGet es d.k).getD EdgeList.new)
                    ((d :: ds2).takeWhile (fun x => x.k = d.k))).1.seal_from
                    ((edgesGet es d.k).getD EdgeList.new).position))
                ((d :: ds2).dropWhile (fun x => x.k = d.k))).1,
             (mergeRun time ((edgesGet es d.k).getD EdgeList.new)
                ((d :: ds2).takeWhile (fun x => x.k = d.k))).2
               ++ (mergeLoop time fuel
                (edgesSet es d.k
                  ((mergeRun time ((edgesGet es d.k).getD EdgeList.new)
                    ((d :: ds2).takeWhile (fun x => x.k = d.k))).1.seal_from
                    ((edgesGet es d.k).getD EdgeList.new).position))
                ((d :: ds2).dropWhile (fun x => x.k = d.k))).2) := rfl
      have hrec := ih ((d :: ds2).dropWhile (fun x => x.k = d.k))
        (edgesSet es d.k
          ((mergeRun time ((edgesGet es d.k).getD EdgeList.new)
            ((d :: ds2).takeWhile (fun x => x.k = d.k))).1.seal_from
            ((edgesGet es d.k).getD EdgeList.new).position))
        (by simp only [List.length_cons] at hlen; omega) hrestpair
      have hsplit : ((d :: ds2).takeWhile (fun x => x.k = d.k))
          ++ ((d :: ds2).dropWhile (fun x => x.k = d.k)) = d :: ds2 :=
        List.takeWhile_append_dropWhile _ _
      rw [hstep]
      refine ⟨?_, ?_, ?_⟩
      · -- the zeroed-diffs characterization
        simp only []
        rw [mergeRun_snd, hrec.1]
        rw [← List.map_append, hsplit]
      · intro k hk
        simp only []
        by_cases hkd : k = d.k
        · have hnot : k ∉ ((d :: ds2).dropWhile (fun x => x.k = d.k)).map Diff.k := by
            intro hc
            obtain ⟨x, hx, hxk⟩ := List.mem_map.mp hc
            have := hrestlt x hx
            omega
          have hfilter : (d :: ds2).filter (fun x => decide (x.k = k) && decide (x.t ≤ time))
              = ((d :: ds2).takeWhile (fun x => x.k = d.k)).filter (fun x => x.t ≤ time) := by
            conv_lhs => rw [← hsplit]
            rw [List.filter_append]
            have h1 : ((d :: ds2).takeWhile (fun x => x.k = d.k)).filter
                (fun x => decide (x.k = k) && decide (x.t ≤ time))
                = ((d :: ds2).takeWhile (fun x => x.k = d.k)).filter (fun x => x.t ≤ time) := by
              apply List.filter_congr
              intro x hx
              have := hrunmem x hx
              simp [this, hkd]
            have h2 : ((d :: ds2).dropWhile (fun x => x.k = d.k)).filter
                (fun x => decide (x.k = k) && decide (x.t ≤ time)) = [] := by
              rw [List.filter_eq_nil_iff]
              intro x hx
              have := hrestlt x hx
              simp only [Bool.and_eq_true, decide_eq_true_eq]
              omega
            rw [h1, h2, List.append_nil]
          rw [hrec.2.2 k hnot, hfilter, hkd, edgesGet_edgesSet_self, mergeRun_fst]
        · have hkrest : k ∈ ((d :: ds2).dropWhile (fun x => x.k = d.k)).map Diff.k := by
            obtain ⟨x, hx, hxk⟩ := List.mem_map.mp hk
            apply List.mem_map.mpr
            refine ⟨x, ?_, hxk⟩
            have hxsplit : x ∈ ((d :: ds2).takeWhile (fun y => y.k = d.k))
                ++ ((d :: ds2).dropWhile (fun y => y.k = d.k)) := by rw [hsplit]; exact hx
            rcases List.mem_append.mp hxsplit with h1 | h2
            · exact absurd (hrunmem x h1) (by rw [hxk]; exact hkd)
            · exact h2
          rw [hrec.2.1 k hkrest]
          rw [edgesGet_edgesSet_other _ _ _ hkd]
          have hfilter : ((d :: ds2).dropWhile (fun x => x.k = d.k)).filter
              (fun x => decide (x.k = k) && decide (x.t ≤ time))
              = (d :: ds2).filter (fun x => decide (x.k = k) && decide (x.t ≤ time)) := by
            conv_rhs => rw [← hsplit]
            rw [List.filter_append]
            have h1 : ((d :: ds2).takeWhile (fun x => x.k = d.k)).filter
                (fun x => decide (x.k = k) && decide (x.t ≤ time)) = [] := by
              rw [List.filter_eq_nil_iff]
              intro x hx
              have := hrunmem x hx
              simp only [Bool.and_eq_true, decide_eq_true_eq]
              intro hc
              exact hkd (by rw [← hc.1, this])
            rw [h1, List.nil_append]
          rw [hfilter]
      · intro k hk
        simp only []
        have hkd : k ≠ d.k := by
          intro hc
          exact hk (List.mem_map.mpr ⟨d, by simp, hc.symm⟩)
        have hnot : k ∉ ((d :: ds2).dropWhile (fun x => x.k = d.k)).map Diff.k := by
          intro hc
          obtain ⟨x, hx, hxk⟩ := List.mem_map.mp hc
          exact hk (List.mem_map.mpr ⟨x, (List.dropWhile_sublist _).mem hx, hxk⟩)
        rw [hrec.2.2 k hnot]
        rw [edgesGet_edgesSet_other _ _ _ hkd]

/-- Pairwise-nondecreasing keys: the shape `Unsorted::extend` maintains for
the diff buffer (it sorts by `(k, v)` after every batch). -/
def KeyGrouped (ds : List Diff) : Prop :=
  List.Pairwise (fun x y : Diff => x.k ≤ y.k) ds

/-- `C4`: for every index whose diff buffer is grouped by key (as the
re-sorting `update` path guarantees) and every time `t`, after `merge_to t`
the diff buffer holds exactly the original diffs with time > t and nonzero
weight (so only entries with time strictly greater than `t`); `min_time` is
the minimum time among the remaining diffs; every key appearing in the
buffer has its edge list replaced by the result of pushing, exactly once
each and in buffer order, the `(value, weight)` of every diff of that key
with time ≤ t, followed by a `seal_from` at the pre-push position; and
edge lists of keys not in the buffer are untouched. -/
theorem claim_C4 (s : Index) (t : Nat) (hg : KeyGrouped s.diffs.updates) :
    ((Index.merge_to s t).diffs.updates
        = s.diffs.updates.filter (fun d => decide (t < d.t) && decide (d.w ≠ 0))) ∧
    (∀ d ∈ (Index.merge_to s t).diffs.updates, t < d.t) ∧
    ((Index.merge_to s t).diffs.min_time
        = minTimeOf ((Index.merge_to s t).diffs.updates)) ∧
    (∀ k, k ∈ s.diffs.updates.map Diff.k →
      edgesGet (Index.merge_to s t).edges k
        = some ((EdgeList.pushList ((edgesGet s.edges k).getD EdgeList.new)
            ((s.diffs.updates.filter (fun d => decide (d.k = k) && decide (d.t ≤ t))).map
              (fun d => (d.v, d.w)))).seal_from
            ((edgesGet s.edges k).getD EdgeList.new).position)) ∧
    (∀ k, k ∉ s.diffs.updates.map Diff.k →
      edgesGet (Index.merge_to s t).edges k = edgesGet s.edges k) := by
  have hspec := mergeLoop_spec t s.diffs.updates.length s.diffs.updates s.edges le_rfl hg
  have hupd : (Index.merge_to s t).diffs.updates
      = ((mergeLoop t s.diffs.updates.length s.edges s.diffs.updates).2).filter
          (fun d => d.w ≠ 0) := rfl
  have hedges : (Index.merge_to s t).edges
      = (mergeLoop t s.diffs.updates.length s.edges s.diffs.updates).1 := rfl
  have hfil : (Index.merge_to s t).diffs.updates
      = s.diffs.updates.filter (fun d => decide (t < d.t) && decide (d.w ≠ 0)) := by
    rw [hupd, hspec.1]
    induction s.diffs.updates with
    | nil => rfl
    | cons d ds ihd =>
      simp only [List.map_cons, List.filter_cons]
      by_cases ht : d.t ≤ t
      · rw [if_pos ht]
        have h1 : (decide (¬({ d with w := 0 } : Diff).w = 0)) = false := by simp
        have h2 : (decide (t < d.t) && decide (¬d.w = 0)) = false := by
          simp only [Bool.and_eq_false_iff, decide_eq_false_iff_not]
          left
          omega
        rw [h1, h2]
        exact ihd
      · rw [if_neg ht]
        have h2 : (decide (t < d.t) && decide (¬d.w = 0)) = decide (¬d.w = 0) := by
          have : decide (t < d.t) = true := by simp; omega
          rw [this, Bool.true_and]
        rw [h2]
        by_cases hw : d.w = 0
        · have : (decide (¬d.w = 0)) = false := by simp [hw]
          rw [this]
          exact ihd
        · have : (decide (¬d.w = 0)) = true := by simp [hw]
          rw [this]
          rw [ihd]
  refine ⟨hfil, ?_, rfl, ?_, ?_⟩
  · intro d hd
    rw [hfil] at hd
    have := List.of_mem_filter hd
    simp only [Bool.and_eq_true, decide_eq_true_eq] at this
    exact this.1
  · intro k hk
    rw [hedges]
    exact hspec.2.1 k hk
  · intro k hk
    rw [hedges]
    exact hspec.2.2 k hk

/-- The merge-boundary example of the claim: diffs
(a,1,t=5,+1),(a,1,t=7,+1),(a,2,t=5,+1) with `a = 0`. -/
def c4Index : Index :=
  { compact := ⟨[], []⟩, edges := [],
    diffs := { updates := [⟨0,1,5,1⟩, ⟨0,1,7,1⟩, ⟨0,2,5,1⟩], min_time := some 5 } }

/-- Witness for `claim_C4` at the claim's example (`merge_to(5)`). -/
theorem claim_C4_witness :
    ((Index.merge_to c4Index 5).diffs.updates
        = c4Index.diffs.updates.filter (fun d => decide (5 < d.t) && decide (d.w ≠ 0))) ∧
    (∀ d ∈ (Index.merge_to c4Index 5).diffs.updates, 5 < d.t) ∧
    ((Index.merge_to c4Index 5).diffs.min_time
        = minTimeOf ((Index.merge_to c4Index 5).diffs.updates)) ∧
    (∀ k, k ∈ c4Index.diffs.updates.map Diff.k →
      edgesGet (Index.merge_to c4Index 5).edges k
        = some ((EdgeList.pushList ((edgesGet c4Index.edges k).getD EdgeList.new)
            ((c4Index.diffs.updates.filter (fun d => decide (d.k = k) && decide (d.t ≤ 5))).map
              (fun d => (d.v, d.w)))).seal_from
            ((edgesGet c4Index.edges k).getD EdgeList.new).position)) ∧
    (∀ k, k ∉ c4Index.diffs.updates.map Diff.k →
      edgesGet (Index.merge_to c4Index 5).edges k = edgesGet c4Index.edges k) :=
  claim_C4 c4Index 5 (by
    constructor
    · intro y hy
      rcases hy with h | h <;> simp_all [c4Index]
    constructor
    · intro y hy
      rcases hy with h
      simp_all [c4Index]
    constructor
    · intro y hy
      simp at hy
    · exact List.Pairwise.nil)

/-! ### intersect (src/wings_rule/index.rs, `EdgeList::intersect`,
`Index::intersect`, `Index::intersect_only`) -/

/-- The galloping merge `EdgeList::intersect_helper`, accumulating weights of
matching updates into `counts`.  Structural recursion on a fuel; each
iteration advances a cursor by at least one, so `source.length +
updates.length + 1` is ample. -/
def intersectHelper (source : List Nat) (updates : List Upd) :
    Nat → Nat → Nat → List Int → List Int
  | 0, _, _, counts => counts
  | fuel + 1, s, u, counts =>
    if hs : s < source.length then
      if hu : u < updates.length then
        if source.get ⟨s, hs⟩ < (updates.get ⟨u, hu⟩).1 then
          intersectHelper source updates fuel
            (s + 1 + advance (source.drop (s + 1)) (fun x => x < (updates.get ⟨u, hu⟩).1))
            u counts
        else if source.get ⟨s, hs⟩ = (updates.get ⟨u, hu⟩).1 then
          intersectHelper source updates fuel (s + 1) (u + 1)
            (counts.set s (counts.getD s 0 + (updates.get ⟨u, hu⟩).2))
        else
          intersectHelper source updates fuel s
            (u + 1 + advance (updates.drop (u + 1)) (fun x => x.1 < source.get ⟨s, hs⟩))
            counts
      else counts
    else counts

/-- The run iteration of `EdgeList::intersect`: process the runs from the
newest (given the reversed bounds list) to the oldest. -/
def intersectRunsRev (source : List Nat) :
    List Nat → List Upd → List Int → List Int
  | [], vals, counts =>
    intersectHelper source vals (source.length + vals.length + 1) 0 0 counts
  | b :: brev, vals, counts =>
    let counts2 := intersectHelper source (vals.drop b)
      (source.length + (vals.drop b).length + 1) 0 0 counts
    intersectRunsRev source brev (vals.take b) counts2

/-- `EdgeList::intersect`: the two leading assertions are modeled by the
`Option`: the call returns `none` exactly when an assertion would fail. -/
def EdgeList.intersect (l : EdgeList) (values : List Nat) (temp : List Int) :
    Option (List Int) :=
  if temp.length = values.length ∧ temp.all (fun x => x = 0) then
    some (intersectRunsRev values l.bounds.reverse l.values temp)
  else none

/-- The timestamp/symmetry admission rule shared by `Index::intersect` and
`Index::intersect_only` for a diff `d` against proposal `p`. -/
def symRule (isF : Bool) (key src dst start p : Nat) (d : Diff) : Bool :=
  decide (d.t < start) ||
    (decide (start = d.t) &&
      (if isF then decide (key < src) || (decide (key = src) && decide (p < dst))
       else decide (p < src) || (decide (p = src) && decide (key < dst))))

/-- The per-record proposal walk of `Index::intersect` (steps ib and ic):
linear over the proposals, galloping cursors into the compact slice and the
diff slice, counting compact occurrences and admitted diff weights. -/
def intersectWalk (cslice : List Nat) (dslice : List Diff) (isF : Bool)
    (key src dst start : Nat) :
    List Nat → List Int → Nat → Nat → List Int
  | [], _, _, _ => []
  | _ :: _, [], _, _ => []
  | p :: ps, t :: ts, ccur, dcur =>
    let ccur1 := ccur + advance (cslice.drop ccur) (fun x => x < p)
    let cm := ((cslice.drop ccur1).takeWhile (fun x => x = p)).length
    let dcur1 := dcur + advance (dslice.drop dcur) (fun x => x.v < p)
    let dseg := (dslice.drop dcur1).takeWhile (fun x => x.v = p)
    let dw := ((dseg.filter (symRule isF key src dst start p)).map Diff.w).sum
    (t + cm + dw) :: intersectWalk cslice dslice isF key src dst start ps ts
      (ccur1 + cm) (dcur1 + dseg.length)

/-- The compaction at the end of `Index::intersect` (swap/truncate): keep, in
order, the proposals whose count is strictly positive. -/
def retainPositive (props : List Nat) (temp : List Int) : List Nat :=
  ((props.zip temp).filter (fun pt => 0 < pt.2)).map Prod.fst

/-- The per-key fetch-and-`expend` of `Index::intersect` (step ii):
returns the updated edge map and the (expended) entry, if any. -/
def expendEntry (es : List (Nat × EdgeList)) (key eff : Nat) :
    List (Nat × EdgeList) × Option EdgeList :=
  match edgesGet es key with
  | some e => (edgesSet es key (e.expend eff), some (e.expend eff))
  | none => (es, none)

/-- Step (ia): add the edge-list counts into the temp vector when the key
has an entry (`entry.as_mut().map(|x| x.intersect(..))`). -/
def entryIntersect (e? : Option EdgeList) (props : List Nat) (temp : List Int) :
    Option (List Int) :=
  match e? with
  | some e => e.intersect props temp
  | none => some temp

/-- One record of `Index::intersect`: zero a temp vector of matching length,
add the edge-list counts (the assertion-checked call), walk compact and
diffs, and retain the positive proposals. -/
def intersectRecord {W : Type} (e? : Option EdgeList) (cslice : List Nat)
    (dslice : List Diff) (isF : Bool) (key start : Nat)
    (x : Pfx × List Nat × W) : Option (Pfx × List Nat × W) :=
  (entryIntersect e? x.2.1 (List.replicate x.2.1.length 0)).map (fun t1 =>
    (x.1,
     retainPositive x.2.1
       (intersectWalk cslice dslice isF key (getSrc x.1) (getDst x.1) start x.2.1 t1 0 0),
     x.2.2))

/-- The group loop of `Index::intersect`, carrying cursors and the mutable
edge map (mutated by `expend`).  Structural recursion on a fuel; the caller
passes the data length, which the grouping (each group nonempty) cannot
exhaust. -/
def intersectLoop {W : Type} (s : Index) (f : Pfx → Nat) (isF : Bool) (start : Nat) :
    Nat → Nat → Nat → List (Nat × EdgeList) → List (Pfx × List Nat × W) →
    Option (List (Pfx × List Nat × W) × List (Nat × EdgeList))
  | _, _, _, es, [] => some ([], es)
  | 0, _, _, _, _ :: _ => none
  | fuel + 1, ccur, dcur, es, x :: xs =>
    let key := f x.1
    let group := (x :: xs).takeWhile (fun y => f y.1 = key)
    let rest := (x :: xs).dropWhile (fun y => f y.1 = key)
    let eff := group.foldl (fun acc y => acc + y.2.1.length) 16
    let cres := s.compact.values_from key ccur
    let epair := expendEntry es key eff
    let dres := s.diffs.values_from key dcur
    (group.mapM (intersectRecord epair.2 cres.1 dres.1 isF key start)).bind (fun recs =>
      (intersectLoop s f isF start fuel cres.2 dres.2 epair.1 rest).map (fun r =>
        (recs ++ r.1, r.2)))

/-- `Index::intersect`: sort by key, then process equal-key groups.  Returns
the filtered data and the updated index (edge lists may have been coalesced
by `expend`); `none` models an assertion failure inside
`EdgeList::intersect`. -/
def Index.intersect {W : Type} (s : Index) (data : List (Pfx × List Nat × W))
    (f : Pfx → Nat) (isF : Bool) (start : Nat) :
    Option (List (Pfx × List Nat × W) × Index) :=
  let sorted := data.insertionSort (fun x y => f x.1 ≤ f y.1)
  (intersectLoop s f isF start sorted.length 0 0 s.edges sorted).map (fun r =>
    (r.1, { s with edges := r.2 }))

/-- The retain loop at the tail of `Index::intersect_only`: keep a record
when its count is nonzero, or when it immediately follows a retained record
with the same `(func1, func2)` pair (the multiplicity-preserving tail);
`acc` plays the role of the compacted prefix `data[..r_cursor]`. -/
def retainFold {W : Type} (f1 f2 : Pfx → Nat) :
    List ((Pfx × W) × Int) → List (Pfx × W) → List (Pfx × W)
  | [], acc => acc
  | (y, tv) :: rest, acc =>
    let keep : Bool := decide (tv ≠ 0) ||
      (match acc.getLast? with
       | some z => decide (f1 y.1 = f1 z.1) && decide (f2 y.1 = f2 z.1)
       | none => false)
    retainFold f1 f2 rest (if keep then acc ++ [y] else acc)

/-- The group loop of `Index::intersect_only`.  The group is delimited by a
galloping `advance` with predicate `func1 ≤ key`; the symmetry rule uses the
`src`/`dst` of the group's *first* record for every proposal of the group
(the source reads `data[index]` before advancing `index`). -/
def intersectOnlyLoop {W : Type} (s : Index) (f1 f2 : Pfx → Nat) (isF : Bool) (start : Nat) :
    Nat → Nat → Nat → List (Nat × EdgeList) → List (Pfx × W) → List (Pfx × W) →
    Option (List (Pfx × W) × List (Nat × EdgeList))
  | _, _, _, es, acc, [] => some (acc, es)
  | 0, _, _, _, _, _ :: _ => none
  | fuel + 1, ccur, dcur, es, acc, x :: xs =>
    let key := f1 x.1
    let glen := advance (x :: xs) (fun y => f1 y.1 ≤ key)
    let group := (x :: xs).take glen
    let rest := (x :: xs).drop glen
    let eff := 16 + glen
    let cres := s.compact.values_from key ccur
    let epair := expendEntry es key eff
    let dres := s.diffs.values_from key dcur
    let props := group.map (fun y => f2 y.1)
    (entryIntersect epair.2 props (List.replicate props.length 0)).bind (fun t1 =>
      intersectOnlyLoop s f1 f2 isF start fuel cres.2 dres.2 epair.1
        (retainFold f1 f2
          (group.zip (intersectWalk cres.1 dres.1 isF key (getSrc x.1) (getDst x.1) start
            props t1 0 0)) acc)
        rest)

/-- `Index::intersect_only`: sort by `(func1, func2)`, process groups,
retain records with nonzero aggregated weight (plus duplicate tails). -/
def Index.intersect_only {W : Type} (s : Index) (data : List (Pfx × W))
    (f1 f2 : Pfx → Nat) (isF : Bool) (start : Nat) :
    Option (List (Pfx × W) × Index) :=
  let sorted := data.insertionSort (fun x y =>
    f1 x.1 < f1 y.1 ∨ (f1 x.1 = f1 y.1 ∧ f2 x.1 ≤ f2 y.1))
  (intersectOnlyLoop s f1 f2 isF start sorted.length 0 0 s.edges [] sorted).map (fun r =>
    (r.1, { s with edges := r.2 }))

/-! ### C10: the intersect preconditions -/

theorem intersect_replicate_some (e : EdgeList) (props : List Nat) :
    ∃ t, e.intersect props (List.replicate props.length (0 : Int)) = some t := by
  rw [EdgeList.intersect]
  rw [if_pos]
  · exact ⟨_, rfl⟩
  · constructor
    · exact List.length_replicate _ _
    · rw [List.all_eq_true]
      intro x hx
      have := List.eq_of_mem_replicate hx
      simp [this]

theorem entryIntersect_replicate_some (e? : Option EdgeList) (props : List Nat) :
    ∃ t, entryIntersect e? props (List.replicate props.length (0 : Int)) = some t := by
  cases e? with
  | none => exact ⟨_, rfl⟩
  | some e =>
    obtain ⟨t, ht⟩ := intersect_replicate_some e props
    exact ⟨t, ht⟩

theorem intersectRecord_isSome {W : Type} (e? : Option EdgeList) (cslice : List Nat)
    (dslice : List Diff) (isF : Bool) (key start : Nat) (x : Pfx × List Nat × W) :
    ∃ y, intersectRecord e? cslice dslice isF key start x = some y := by
  rw [intersectRecord]
  obtain ⟨t, ht⟩ := entryIntersect_replicate_some e? x.2.1
  rw [ht]
  exact ⟨_, rfl⟩

theorem mapM_isSome {α β : Type} (g : α → Option β) :
    ∀ (l : List α), (∀ x ∈ l, ∃ y, g x = some y) → ∃ ys, l.mapM g = some ys := by
  intro l
  induction l with
  | nil => intro h; exact ⟨[], rfl⟩
  | cons a l ih =>
    intro h
    obtain ⟨y, hy⟩ := h a (by simp)
    obtain ⟨ys, hys⟩ := ih (fun x hx => h x (by simp [hx]))
    refine ⟨y :: ys, ?_⟩
    rw [List.mapM_cons, hy, hys]
    rfl

theorem bind_map_isSome {α β γ : Type} (o1 : Option α) (o2 : Option β) (g : α → β → γ)
    (h1 : ∃ v, o1 = some v) (h2 : ∃ w, o2 = some w) :
    ∃ z, o1.bind (fun v => o2.map (g v)) = some z := by
  obtain ⟨v, hv⟩ := h1
  obtain ⟨w, hw⟩ := h2
  rw [hv, hw]
  exact ⟨_, rfl⟩

theorem bind_isSome {α β : Type} (o1 : Option α) (k : α → Option β)
    (h1 : ∃ v, o1 = some v) (h2 : ∀ v, ∃ z, k v = some z) :
    ∃ z, o1.bind k = some z := by
  obtain ⟨v, hv⟩ := h1
  rw [hv]
  exact h2 v

theorem advance_pos {α : Type} (slice : List α) (f : α → Bool) (h0 : 0 < slice.length)
    (hf : f (slice.get ⟨0, h0⟩) = true) : 1 ≤ advance slice f := by
  rw [advance, dif_pos h0, if_pos hf]
  exact Nat.succ_le_succ (Nat.zero_le _)

theorem intersectLoop_isSome {W : Type} (s : Index) (f : Pfx → Nat) (isF : Bool)
    (start : Nat) :
    ∀ fuel (data : List (Pfx × List Nat × W)) ccur dcur es, data.length ≤ fuel →
      ∃ r, intersectLoop s f isF start fuel ccur dcur es data = some r := by
  intro fuel
  induction fuel with
  | zero =>
    intro data ccur dcur es hlen
    have : data = [] := List.eq_nil_of_length_eq_zero (by omega)
    subst this
    exact ⟨_, rfl⟩
  | succ fuel ih =>
    intro data ccur dcur es hlen
    cases data with
    | nil => exact ⟨_, rfl⟩
    | cons x xs =>
      rw [intersectLoop]
      apply bind_map_isSome
      · exact mapM_isSome _ _ (fun y _ => intersectRecord_isSome _ _ _ _ _ _ y)
      · apply ih
        have heq : (x :: xs).dropWhile (fun y => f y.1 = f x.1)
            = xs.dropWhile (fun y => f y.1 = f x.1) := by
          rw [List.dropWhile_cons]
          simp
        rw [heq]
        have hsub : List.Sublist (xs.dropWhile (fun y => f y.1 = f x.1)) xs :=
          List.dropWhile_sublist _
        have := hsub.length_le
        simp only [List.length_cons] at hlen
        omega

theorem intersectOnlyLoop_isSome {W : Type} (s : Index) (f1 f2 : Pfx → Nat) (isF : Bool)
    (start : Nat) :
    ∀ fuel (data : List (Pfx × W)) ccur dcur es acc, data.length ≤ fuel →
      ∃ r, intersectOnlyLoop s f1 f2 isF start fuel ccur dcur es acc data = some r := by
  intro fuel
  induction fuel with
  | zero =>
    intro data ccur dcur es acc hlen
    have : data = [] := List.eq_nil_of_length_eq_zero (by omega)
    subst this
    exact ⟨_, rfl⟩
  | succ fuel ih =>
    intro data ccur dcur es acc hlen
    cases data with
    | nil => exact ⟨_, rfl⟩
    | cons x xs =>
      rw [intersectOnlyLoop]
      apply bind_isSome
      · exact entryIntersect_replicate_some _ _
      · intro t1
        apply ih
        have hglen : 1 ≤ advance (x :: xs) (fun y => f1 y.1 ≤ f1 x.1) :=
          advance_pos _ _ (by simp) (by simp)
        rw [List.length_drop]
        simp only [List.length_cons] at hlen ⊢
        omega

/-- `C10`: every call of `EdgeList::intersect` issued by `Index::intersect`
or `Index::intersect_only` passes a freshly zeroed temp vector of exactly
the proposals' length, so the two leading assertions of
`EdgeList::intersect` (modeled by the `Option` result) never fail: both
entry points always return a result, on every state and input. -/
theorem claim_C10 {W : Type} (s : Index) (f f1 f2 : Pfx → Nat) (isF : Bool) (start : Nat)
    (data : List (Pfx × List Nat × W)) (data2 : List (Pfx × W)) :
    (∃ r, Index.intersect s data f isF start = some r) ∧
    (∃ r2, Index.intersect_only s data2 f1 f2 isF start = some r2) := by
  constructor
  · rw [Index.intersect]
    obtain ⟨r, hr⟩ := intersectLoop_isSome s f isF start
      (data.insertionSort (fun x y => f x.1 ≤ f y.1)).length
      (data.insertionSort (fun x y => f x.1 ≤ f y.1)) 0 0 s.edges le_rfl
    rw [hr]
    exact ⟨_, rfl⟩
  · rw [Index.intersect_only]
    obtain ⟨r, hr⟩ := intersectOnlyLoop_isSome s f1 f2 isF start
      (data2.insertionSort (fun x y =>
        f1 x.1 < f1 y.1 ∨ (f1 x.1 = f1 y.1 ∧ f2 x.1 ≤ f2 y.1))).length
      (data2.insertionSort (fun x y =>
        f1 x.1 < f1 y.1 ∨ (f1 x.1 = f1 y.1 ∧ f2 x.1 ≤ f2 y.1))) 0 0 s.edges [] le_rfl
    rw [hr]
    exact ⟨_, rfl⟩

/-! ### DirReader (src/wings_plan/dir_reader.rs)

The file system is embedded as a list of files (in the sorted order
`DirReader::new` establishes), each file a list of lines; each line is the
full `read_line` result, i.e. including its trailing newline.  Lines are
`List Char`.  Parse failures (`expect("malformed src")`) are modeled by
`none`. -/

/-- ASCII whitespace, as relevant for the edge files (`split_whitespace`). -/
def isWs (c : Char) : Bool := c = ' ' ∨ c = '\t' ∨ c = '\n' ∨ c = '\r'

/-- `split_whitespace`: maximal runs of non-whitespace characters. -/
def splitWs : List Char → List Char → List (List Char)
  | [], cur => if cur = [] then [] else [cur.reverse]
  | c :: rest, cur =>
    if isWs c then
      (if cur = [] then splitWs rest [] else cur.reverse :: splitWs rest [])
    else splitWs rest (c :: cur)

/-- One decimal digit. -/
def digitVal (c : Char) : Option Nat :=
  if '0' ≤ c ∧ c ≤ '9' then some (c.toNat - '0'.toNat) else none

/-- `str::parse::<u32>` on a token: all-decimal, nonempty, below `2^32`. -/
def parseU32 (tok : List Char) : Option Nat :=
  match tok with
  | [] => none
  | _ =>
    match tok.foldl (fun acc c =>
        match acc, digitVal c with
        | some n, some d => some (n * 10 + d)
        | _, _ => none) (some 0) with
    | some n => if n < 2 ^ 32 then some n else none
    | none => none

/-- Parse one edge line: two whitespace-separated `u32` fields. -/
def parseEdgeLine (line : List Char) : Option (Nat × Nat) :=
  let elts := splitWs line []
  match elts.getD 0 [], elts.getD 1 [] with
  | t1, t2 =>
    match parseU32 t1, parseU32 t2 with
    | some a, some b => some (a, b)
    | _, _ => none

/-- The loop of `DirReader::read_edges`: the `discard` flag toggles after
*every* line read (including comment lines), but is preserved across the
end-of-file `continue` that opens the next file.  Fuel-based structural
recursion; the caller passes total lines + number of files + 1. -/
def readEdgesLoop :
    Nat → List (List (List Char)) → Bool → Nat → List (Nat × Nat) →
    Option (List (Nat × Nat))
  | 0, _, _, _, _ => none
  | fuel + 1, files, discard, remaining, acc =>
    if remaining = 0 then some acc
    else
      match files with
      | [] => some acc
      | [] :: fs => readEdgesLoop fuel fs discard remaining acc
      | (line :: rest) :: fs =>
        if discard = false ∧ line.headD ' ' ≠ '#' ∧ 0 < line.length then
          match parseEdgeLine line with
          | none => none
          | some e => readEdgesLoop fuel (rest :: fs) (!discard) (remaining - 1) (acc ++ [e])
        else readEdgesLoop fuel (rest :: fs) (!discard) remaining acc

/-- `DirReader::read_edges(num_edges)` over the sorted files. -/
def read_edges (files : List (List (List Char))) (num : Nat) : Option (List (Nat × Nat)) :=
  readEdgesLoop ((files.map List.length).sum + files.length + 1) files false num []

/-- The spec-side reading of `C6`, amended no further than the
counterexample forces: the same reader over the *flattened* line sequence
(file boundaries are irrelevant), with the alternating discard toggle made
explicit — only every other line is examined, and each examined
non-comment, non-empty line contributes one edge, until `m` edges or end of
input. -/
def flatReadSpec : List (List Char) → Bool → Nat → Option (List (Nat × Nat))
  | [], _, _ => some []
  | line :: rest, discard, m =>
    if m = 0 then some []
    else if discard = false ∧ line.headD ' ' ≠ '#' ∧ 0 < line.length then
      match parseEdgeLine line with
      | none => none
      | some e => (flatReadSpec rest (!discard) (m - 1)).map (fun es => e :: es)
    else flatReadSpec rest (!discard) m

/-- A line `"1 2\n"`. -/
def c6Line1 : List Char := ['1', ' ', '2', '\n']
/-- A line `"3 4\n"`. -/
def c6Line2 : List Char := ['3', ' ', '4', '\n']

/-- `C6`, counterexample: a directory holding one file with the two
well-formed edge lines `1 2` and `3 4`; `read_edges(2)` returns only
`(1,2)` — the second line is discarded by the alternating flag — whereas
the claim says every non-comment, non-empty line contributes an edge. -/
theorem claim_C6_counterexample :
    read_edges [[c6Line1, c6Line2]] 2 = some [(1, 2)] ∧
    read_edges [[c6Line1, c6Line2]] 2 ≠ some [(1, 2), (3, 4)] := by
  constructor
  · rfl
  · intro h
    rw [show read_edges [[c6Line1, c6Line2]] 2 = some [(1, 2)] from rfl] at h
    simp at h

theorem flatReadSpec_zero (lines : List (List Char)) (discard : Bool) :
    flatReadSpec lines discard 0 = some [] := by
  cases lines with
  | nil => rfl
  | cons line rest => rw [flatReadSpec, if_pos rfl]

theorem map_map_cons (o : Option (List (Nat × Nat))) (acc : List (Nat × Nat))
    (e : Nat × Nat) :
    (o.map (fun es => e :: es)).map (fun es => acc ++ es)
      = o.map (fun es => (acc ++ [e]) ++ es) := by
  cases o with
  | none => rfl
  | some es => simp

theorem readEdgesLoop_flat :
    ∀ fuel (files : List (List (List Char))) (discard : Bool) (remaining : Nat)
      (acc : List (Nat × Nat)),
      (files.map List.length).sum + files.length < fuel →
      readEdgesLoop fuel files discard remaining acc
        = (flatReadSpec files.flatten discard remaining).map (fun es => acc ++ es) := by
  intro fuel
  induction fuel with
  | zero => intro files discard remaining acc hf; omega
  | succ fuel ih =>
    intro files discard remaining acc hf
    cases files with
    | nil =>
      rw [readEdgesLoop]
      rw [show (List.flatten ([] : List (List (List Char)))) = [] from rfl]
      rw [show flatReadSpec [] discard remaining = some [] from rfl]
      by_cases hr : remaining = 0 <;> simp [hr]
    | cons file fs =>
      cases file with
      | nil =>
        rw [readEdgesLoop]
        rw [show (List.flatten (([] : List (List Char)) :: fs)) = fs.flatten by simp]
        by_cases hr : remaining = 0
        · rw [if_pos hr, hr, flatReadSpec_zero]
          simp
        · rw [if_neg hr]
          apply ih
          simp only [List.map_cons, List.sum_cons, List.length_cons,
            List.length_nil] at hf ⊢
          omega
      | cons line rest =>
        rw [readEdgesLoop]
        rw [show (List.flatten ((line :: rest) :: fs))
            = line :: (List.flatten (rest :: fs)) by simp]
        cases remaining with
        | zero =>
          rw [if_pos rfl, flatReadSpec, if_pos rfl]
          simp
        | succ m =>
          rw [if_neg (by omega : ¬ (m + 1 = 0))]
          rw [flatReadSpec, if_neg (by omega : ¬ (m + 1 = 0))]
          have hm1 : m + 1 - 1 = m := by omega
          have hf2 : (List.map List.length (rest :: fs)).sum + (rest :: fs).length < fuel := by
            simp only [List.map_cons, List.sum_cons, List.length_cons] at hf ⊢
            omega
          by_cases hc : discard = false ∧ line.headD ' ' ≠ '#' ∧ 0 < line.length
          · rw [if_pos hc, if_pos hc, hm1]
            cases hp : parseEdgeLine line with
            | none => rfl
            | some e =>
              show readEdgesLoop fuel (rest :: fs) (!discard) m (acc ++ [e])
                  = Option.map (fun es => acc ++ es)
                      (Option.map (fun es => e :: es)
                        (flatReadSpec (rest :: fs).flatten (!discard) m))
              rw [ih (rest :: fs) (!discard) m (acc ++ [e]) hf2, map_map_cons]
          · rw [if_neg hc, if_neg hc]
            exact ih (rest :: fs) (!discard) (m + 1) acc hf2

/-- `C6`, amended: for every directory of edge files (as the sorted list of
files' lines, each line as returned by `read_line`), `read_edges(n)`
behaves as a single pass over the *concatenation* of the files' lines, with
a discard flag that toggles after every line read (comment lines included)
and is preserved across file boundaries: only every other line is examined,
each examined line that does not start with `#` and is non-empty
contributes one `(src, dst)` pair in order, and reading stops after `n`
edges or at end of input (malformed examined lines abort, modeled by
`none`). -/
theorem claim_C6 (files : List (List (List Char))) (n : Nat) :
    read_edges files n = flatReadSpec files.flatten false n := by
  rw [read_edges]
  rw [readEdgesLoop_flat _ files false n [] (by omega)]
  cases flatReadSpec files.flatten false n with
  | none => rfl
  | some es => simp

/-! ### forward_propose / reverse_propose (src/wings_rule/index.rs) -/

/-- The zero-propagating merge pass of `consolidate_proposals`: walk the
sorted vector once; on equal adjacent values, add the earlier weight into
the later entry and zero the earlier one. -/
def sweepProps : (Nat × Int) → List (Nat × Int) → List (Nat × Int)
  | cur, [] => [cur]
  | cur, y :: rest =>
    if cur.1 = y.1 then (cur.1, 0) :: sweepProps (y.1, cur.2 + y.2) rest
    else cur :: sweepProps y rest

/-- `consolidate_proposals`: sort by value (stable; embedded as
`insertionSort`), merge equal adjacent values, retain strictly positive
weights. -/
def consolidate_proposals (props : List (Nat × Int)) : List (Nat × Int) :=
  if 0 < props.length then
    (match props.insertionSort (fun x y : Nat × Int => x.1 ≤ y.1) with
     | [] => []
     | x :: rest => sweepProps x rest).filter (fun x => 0 < x.2)
  else props

/-- The per-record push loop: for each consolidated `(val, cnt)`, push `val`
`cnt` times into the record's extension list unless the prefix already
contains it (`P::find`). -/
def proposeExts (p : Pfx) (exts : List Nat) (props : List (Nat × Int)) : List Nat :=
  exts ++ props.flatMap (fun vc =>
    if findIn p vc.1 then [] else List.replicate vc.2.toNat vc.1)

/-- The per-key fetch of `entry.proposals()` used by both propose paths:
consolidates the entry in place and returns its slice. -/
def proposalsEntry (es : List (Nat × EdgeList)) (key : Nat) :
    List (Nat × EdgeList) × List Upd :=
  match edgesGet es key with
  | some e => (edgesSet es key (e.proposals).1, (e.proposals).2)
  | none => (es, [])

/-- The inner loop of `forward_propose` for one equal-key group (the group
members all have `func = key`), carrying `dst_cursor` into the diff slice
and the staged proposals.  Each step consumes at least one record, so the
group length is ample fuel. -/
def fpGroup {W : Type} (key start : Nat) (dvals : List Diff) :
    Nat → Nat → List (Nat × Int) → List (Pfx × List Nat × W) →
    List (Pfx × List Nat × W)
  | _, _, _, [] => []
  | 0, _, _, _ :: _ => []
  | fuel + 1, dc, props, x :: xs =>
    if getSrc x.1 < key then
      let props2 := consolidate_proposals props
      let sub := (x :: xs).takeWhile (fun y => getSrc y.1 < key)
      let rest := (x :: xs).dropWhile (fun y => getSrc y.1 < key)
      sub.map (fun y => (y.1, proposeExts y.1 y.2.1 props2, y.2.2))
        ++ fpGroup key start dvals fuel dc props2 rest
    else if getSrc x.1 = key then
      let dst := getDst x.1
      let seg := (dvals.drop dc).takeWhile (fun d => d.v < dst)
      let props2 := consolidate_proposals
        (props ++ (seg.filter (fun d => d.t = start)).map (fun d => (d.v, d.w)))
      let sub := (x :: xs).takeWhile
        (fun y => getSrc y.1 = getSrc x.1 ∧ getDst y.1 = dst)
      let rest := (x :: xs).dropWhile
        (fun y => getSrc y.1 = getSrc x.1 ∧ getDst y.1 = dst)
      sub.map (fun y => (y.1, proposeExts y.1 y.2.1 props2, y.2.2))
        ++ fpGroup key start dvals fuel (dc + seg.length) props2 rest
    else
      let props2 := consolidate_proposals
        (props ++ (((dvals.drop dc)).filter (fun d => d.t = start)).map (fun d => (d.v, d.w)))
      (x :: xs).map (fun y => (y.1, proposeExts y.1 y.2.1 props2, y.2.2))

/-- The outer (per-key-group) loop of `forward_propose`, carrying the
compact and diff cursors and the mutable edge map (mutated by
`proposals()`). -/
def fpLoop {W : Type} (compact : CompactIndex) (diffs : Unsorted) (f : Pfx → Nat)
    (start : Nat) :
    Nat → Nat → Nat → List (Nat × EdgeList) → List (Pfx × List Nat × W) →
    List (Pfx × List Nat × W) × List (Nat × EdgeList)
  | _, _, _, es, [] => ([], es)
  | 0, _, _, es, _ :: _ => ([], es)
  | fuel + 1, ccur, dcur, es, x :: xs =>
    let key := f x.1
    let group := (x :: xs).takeWhile (fun y => f y.1 = key)
    let rest := (x :: xs).dropWhile (fun y => f y.1 = key)
    let cres := compact.values_from key ccur
    let ep := proposalsEntry es key
    let dres := diffs.values_from key dcur
    let props0 := cres.1.map (fun v => (v, (1 : Int))) ++ ep.2
      ++ ((dres.1.filter (fun d => d.t < start)).map (fun d => (d.v, d.w)))
    let out := fpGroup key start dres.1 group.length 0 props0 group
    let r := fpLoop compact diffs f start fuel cres.2 dres.2 ep.1 rest
    (out ++ r.1, r.2)

/-- The `(func, get_src, get_dst)` lexicographic order used by the
`sort_unstable_by` of both propose paths. -/
def proposeOrd (f : Pfx → Nat) (x y : Pfx × List Nat × Int) : Prop :=
  f x.1 < f y.1 ∨ (f x.1 = f y.1 ∧
    (getSrc x.1 < getSrc y.1 ∨ (getSrc x.1 = getSrc y.1 ∧ getDst x.1 ≤ getDst y.1)))

/-- `Index::forward_propose`: sort by `(func, src, dst)` and process
equal-key groups; returns the extended data and the updated index. -/
def Index.forward_propose {W : Type} (s : Index) (data : List (Pfx × List Nat × W))
    (f : Pfx → Nat) (start : Nat) : List (Pfx × List Nat × W) × Index :=
  let sorted := data.insertionSort (fun x y =>
    f x.1 < f y.1 ∨ (f x.1 = f y.1 ∧
      (getSrc x.1 < getSrc y.1 ∨ (getSrc x.1 = getSrc y.1 ∧ getDst x.1 ≤ getDst y.1))))
  let r := fpLoop s.compact s.diffs f start sorted.length 0 0 s.edges sorted
  (r.1, { s with edges := r.2 })

/-- The inner loop of `reverse_propose` for one equal-key group, carrying
`src_cursor` into the diff slice. -/
def rpGroup {W : Type} (key start : Nat) (dvals : List Diff) :
    Nat → Nat → List (Nat × Int) → List (Pfx × List Nat × W) →
    List (Pfx × List Nat × W)
  | _, _, _, [] => []
  | 0, _, _, _ :: _ => []
  | fuel + 1, sc, props, x :: xs =>
    if getDst x.1 ≤ key then
      let seg := (dvals.drop sc).takeWhile (fun d => d.v < getSrc x.1)
      let props2 := consolidate_proposals
        (props ++ (seg.filter (fun d => d.t = start)).map (fun d => (d.v, d.w)))
      let sub := (x :: xs).takeWhile
        (fun y => getSrc y.1 = getSrc x.1 ∧ getDst y.1 ≤ key)
      let rest := (x :: xs).dropWhile
        (fun y => getSrc y.1 = getSrc x.1 ∧ getDst y.1 ≤ key)
      sub.map (fun y => (y.1, proposeExts y.1 y.2.1 props2, y.2.2))
        ++ rpGroup key start dvals fuel (sc + seg.length) props2 rest
    else
      let seg := (dvals.drop sc).takeWhile (fun d => d.v ≤ getSrc x.1)
      let props2 := consolidate_proposals
        (props ++ (seg.filter (fun d => d.t = start)).map (fun d => (d.v, d.w)))
      let sub := (x :: xs).takeWhile (fun y => getSrc y.1 = getSrc x.1)
      let rest := (x :: xs).dropWhile (fun y => getSrc y.1 = getSrc x.1)
      sub.map (fun y => (y.1, proposeExts y.1 y.2.1 props2, y.2.2))
        ++ rpGroup key start dvals fuel (sc + seg.length) props2 rest

/-- The outer (per-key-group) loop of `reverse_propose`. -/
def rpLoop {W : Type} (compact : CompactIndex) (diffs : Unsorted) (f : Pfx → Nat)
    (start : Nat) :
    Nat → Nat → Nat → List (Nat × EdgeList) → List (Pfx × List Nat × W) →
    List (Pfx × List Nat × W) × List (Nat × EdgeList)
  | _, _, _, es, [] => ([], es)
  | 0, _, _, es, _ :: _ => ([], es)
  | fuel + 1, ccur, dcur, es, x :: xs =>
    let key := f x.1
    let group := (x :: xs).takeWhile (fun y => f y.1 = key)
    let rest := (x :: xs).dropWhile (fun y => f y.1 = key)
    let cres := compact.values_from key ccur
    let ep := proposalsEntry es key
    let dres := diffs.values_from key dcur
    let props0 := cres.1.map (fun v => (v, (1 : Int))) ++ ep.2
      ++ ((dres.1.filter (fun d => d.t < start)).map (fun d => (d.v, d.w)))
    let out := rpGroup key start dres.1 group.length 0 props0 group
    let r := rpLoop compact diffs f start fuel cres.2 dres.2 ep.1 rest
    (out ++ r.1, r.2)

/-- `Index::reverse_propose`. -/
def Index.reverse_propose {W : Type} (s : Index) (data : List (Pfx × List Nat × W))
    (f : Pfx → Nat) (start : Nat) : List (Pfx × List Nat × W) × Index :=
  let sorted := data.insertionSort (fun x y =>
    f x.1 < f y.1 ∨ (f x.1 = f y.1 ∧
      (getSrc x.1 < getSrc y.1 ∨ (getSrc x.1 = getSrc y.1 ∧ getDst x.1 ≤ getDst y.1))))
  let r := rpLoop s.compact s.diffs f start sorted.length 0 0 s.edges sorted
  (r.1, { s with edges := r.2 })

/-! ### C2: forward-propose symmetry breaking -/

theorem take_takeWhile_length {α : Type} (l : List α) (p : α → Bool) :
    l.take (l.takeWhile p).length = l.takeWhile p := by
  induction l with
  | nil => rfl
  | cons x xs ih =>
    rw [List.takeWhile_cons]
    by_cases hx : p x = true
    · rw [if_pos hx]
      simp [List.take_succ_cons, ih]
    · rw [if_neg hx]
      rfl

theorem drop_takeWhile_length {α : Type} (l : List α) (p : α → Bool) :
    l.drop (l.takeWhile p).length = l.dropWhile p := by
  induction l with
  | nil => rfl
  | cons x xs ih =>
    rw [List.takeWhile_cons, List.dropWhile_cons]
    by_cases hx : p x = true
    · rw [if_pos hx, if_pos hx]
      simpa using ih
    · rw [if_neg hx, if_neg hx]
      rfl

/-- In a buffer sorted by the `(k, v)` order of `Unsorted::extend`, keys are
monotone by position. -/
theorem pairwise_key_mono (l : List Diff) (h : List.Pairwise diffRel l)
    (i j : Nat) (hij : i ≤ j) (hj : j < l.length) :
    (l.get ⟨i, Nat.lt_of_le_of_lt hij hj⟩).k ≤ (l.get ⟨j, hj⟩).k := by
  rcases Nat.lt_or_ge i j with hlt | hge
  · have h2 := List.pairwise_iff_get.mp h ⟨i, Nat.lt_of_le_of_lt hij hj⟩ ⟨j, hj⟩ hlt
    have h3 : (l.get ⟨i, Nat.lt_of_le_of_lt hij hj⟩).k < (l.get ⟨j, hj⟩).k ∨
        ((l.get ⟨i, Nat.lt_of_le_of_lt hij hj⟩).k = (l.get ⟨j, hj⟩).k ∧
          (l.get ⟨i, Nat.lt_of_le_of_lt hij hj⟩).v ≤ (l.get ⟨j, hj⟩).v) := h2
    omega
  · have hij2 : i = j := Nat.le_antisymm hij hge
    subst hij2
    exact Nat.le_refl _

/-- A downward-closed predicate's `takeWhile` agrees with `filter` on a
sorted list. -/
theorem takeWhile_eq_filter_of_sorted {α : Type} (le : α → α → Prop) (p : α → Bool)
    (hdc : ∀ a b, le a b → p b = true → p a = true) :
    ∀ l : List α, List.Pairwise le l → l.takeWhile p = l.filter p := by
  intro l
  induction l with
  | nil => intro _; rfl
  | cons x xs ih =>
    intro h
    rcases List.pairwise_cons.mp h with ⟨hx, hxs⟩
    rw [List.takeWhile_cons, List.filter_cons]
    by_cases hpx : p x = true
    · rw [if_pos hpx, if_pos hpx, ih hxs]
    · rw [if_neg hpx, if_neg hpx]
      have hfil : xs.filter p = [] := by
        rw [List.filter_eq_nil_iff]
        intro a ha hpa
        exact hpx (hdc x a (hx a ha) hpa)
      rw [hfil]

theorem mem_dropWhile_key_ge (key : Nat) :
    ∀ l : List Diff, List.Pairwise diffRel l →
      ∀ x ∈ l.dropWhile (fun d => decide (d.k < key)), key ≤ x.k := by
  intro l
  induction l with
  | nil => intro _ x hx; simp at hx
  | cons a as ih =>
    intro h x hx
    rcases List.pairwise_cons.mp h with ⟨ha, has⟩
    by_cases hak : a.k < key
    · rw [List.dropWhile_cons_of_pos (by simpa using hak)] at hx
      exact ih has x hx
    · rw [List.dropWhile_cons_of_neg (by simpa using hak)] at hx
      rcases List.mem_cons.mp hx with rfl | hmem
      · omega
      · have h2 : a.k < x.k ∨ (a.k = x.k ∧ a.v ≤ x.v) := ha x hmem
        omega

theorem filter_key_of_dropWhile (key : Nat) (l : List Diff) :
    (l.dropWhile (fun d => decide (d.k < key))).filter (fun d => decide (d.k = key))
      = l.filter (fun d => decide (d.k = key)) := by
  conv_rhs => rw [← List.takeWhile_append_dropWhile (fun d => decide (d.k < key)) l]
  rw [List.filter_append]
  have htw : (l.takeWhile (fun d => decide (d.k < key))).filter
      (fun d => decide (d.k = key)) = [] := by
    rw [List.filter_eq_nil_iff]
    intro a ha hpa
    have h1 := List.mem_takeWhile_imp ha
    simp only [decide_eq_true_eq] at h1 hpa
    omega
  rw [htw, List.nil_append]

/-- With the buffer sorted by `(k, v)` (as `Unsorted::extend` maintains),
the galloping `values_from key` from cursor 0 returns exactly the diffs
whose key is `key`. -/
theorem unsorted_values_from_zero (u : Unsorted) (key : Nat)
    (h : List.Pairwise diffRel u.updates) :
    (u.values_from key 0).1 = u.updates.filter (fun d => decide (d.k = key)) := by
  have hadv1 : advance u.updates (fun x => decide (x.k < key))
      = (u.updates.takeWhile (fun x => decide (x.k < key))).length := by
    apply advance_eq_takeWhile_length
    intro i j hij hj hfj
    simp only [decide_eq_true_eq] at hfj ⊢
    have := pairwise_key_mono u.updates h i j hij hj
    omega
  have htail : List.Pairwise diffRel
      (u.updates.dropWhile (fun x => decide (x.k < key))) :=
    List.Pairwise.sublist (List.dropWhile_sublist _) h
  have hadv2 : advance (u.updates.dropWhile (fun x => decide (x.k < key)))
        (fun x => decide (x.k ≤ key))
      = ((u.updates.dropWhile (fun x => decide (x.k < key))).takeWhile
          (fun x => decide (x.k ≤ key))).length := by
    apply advance_eq_takeWhile_length
    intro i j hij hj hfj
    simp only [decide_eq_true_eq] at hfj ⊢
    have := pairwise_key_mono _ htail i j hij hj
    omega
  have hdc : ∀ a b : Diff, diffRel a b →
      decide (b.k ≤ key) = true → decide (a.k ≤ key) = true := by
    intro a b hab hb
    have h2 : a.k < b.k ∨ (a.k = b.k ∧ a.v ≤ b.v) := hab
    simp only [decide_eq_true_eq] at hb ⊢
    omega
  have hcongr : (u.updates.dropWhile (fun x => decide (x.k < key))).filter
        (fun x => decide (x.k ≤ key))
      = (u.updates.dropWhile (fun x => decide (x.k < key))).filter
        (fun d => decide (d.k = key)) := by
    apply List.filter_congr
    intro x hx
    have := mem_dropWhile_key_ge key u.updates h x hx
    simp only [decide_eq_decide]
    omega
  simp only [Unsorted.values_from, List.drop_zero, Nat.zero_add]
  rw [hadv1, drop_takeWhile_length, hadv2, take_takeWhile_length]
  rw [takeWhile_eq_filter_of_sorted diffRel _ hdc _ htail]
  rw [hcongr, filter_key_of_dropWhile]

/-- Diffs of a single key are sorted by value. -/
theorem filter_key_v_sorted (key : Nat) (l : List Diff)
    (h : List.Pairwise diffRel l) :
    List.Pairwise (fun a b : Diff => a.v ≤ b.v)
      (l.filter (fun d => decide (d.k = key))) := by
  have hp : List.Pairwise diffRel (l.filter (fun d => decide (d.k = key))) :=
    List.Pairwise.sublist (List.filter_sublist _) h
  refine hp.imp_of_mem ?_
  intro a b ha hb hab
  have hak : a.k = key := by
    have := (List.mem_filter.mp ha).2
    simpa using this
  have hbk : b.k = key := by
    have := (List.mem_filter.mp hb).2
    simpa using this
  have h2 : a.k < b.k ∨ (a.k = b.k ∧ a.v ≤ b.v) := hab
  omega

/-- `fpLoop` on a single record: one group, one diff slice, the staged
base proposals, and the `proposals()`-consolidated edge map. -/
theorem fpLoop_nil {W : Type} (compact : CompactIndex) (diffs : Unsorted)
    (f : Pfx → Nat) (start fuel ccur dcur : Nat) (es : List (Nat × EdgeList)) :
    fpLoop compact diffs f start fuel ccur dcur es
        ([] : List (Pfx × List Nat × W)) = ([], es) := by
  cases fuel with
  | zero => rfl
  | succ n => rfl

theorem fpLoop_singleton {W : Type} (compact : CompactIndex) (diffs : Unsorted)
    (f : Pfx → Nat) (start n : Nat) (es : List (Nat × EdgeList))
    (x : Pfx × List Nat × W) :
    fpLoop compact diffs f start (n + 1) 0 0 es [x]
      = (fpGroup (f x.1) start (diffs.values_from (f x.1) 0).1 1 0
           ((compact.values_from (f x.1) 0).1.map (fun v => (v, (1 : Int)))
             ++ (proposalsEntry es (f x.1)).2
             ++ ((diffs.values_from (f x.1) 0).1.filter
                   (fun d => decide (d.t < start))).map (fun d => (d.v, d.w)))
           [x],
         (proposalsEntry es (f x.1)).1) := by
  simp only [fpLoop]
  simp [List.takeWhile_cons, List.dropWhile_cons, fpLoop_nil]

theorem fpGroup_singleton_lt {W : Type} (key start : Nat) (dvals : List Diff)
    (props : List (Nat × Int)) (x : Pfx × List Nat × W) (h : getSrc x.1 < key) :
    fpGroup key start dvals 1 0 props [x]
      = [(x.1, proposeExts x.1 x.2.1 (consolidate_proposals props), x.2.2)] := by
  simp only [fpGroup]
  rw [if_pos h]
  simp [List.takeWhile_cons, List.dropWhile_cons, h, fpGroup]

theorem fpGroup_singleton_eq {W : Type} (key start : Nat) (dvals : List Diff)
    (props : List (Nat × Int)) (x : Pfx × List Nat × W) (h : getSrc x.1 = key) :
    fpGroup key start dvals 1 0 props [x]
      = [(x.1, proposeExts x.1 x.2.1 (consolidate_proposals
          (props ++ ((dvals.takeWhile (fun d => decide (d.v < getDst x.1))).filter
            (fun d => decide (d.t = start))).map (fun d => (d.v, d.w)))), x.2.2)] := by
  simp only [fpGroup]
  rw [if_neg (by omega), if_pos h]
  simp [List.takeWhile_cons, List.dropWhile_cons, List.drop_zero, fpGroup]

theorem fpGroup_singleton_gt {W : Type} (key start : Nat) (dvals : List Diff)
    (props : List (Nat × Int)) (x : Pfx × List Nat × W) (h : key < getSrc x.1) :
    fpGroup key start dvals 1 0 props [x]
      = [(x.1, proposeExts x.1 x.2.1 (consolidate_proposals
          (props ++ (dvals.filter (fun d => decide (d.t = start))).map
            (fun d => (d.v, d.w)))), x.2.2)] := by
  simp only [fpGroup]
  rw [if_neg (by omega), if_neg (by omega)]
  simp [List.drop_zero]

/-- C2's admission rule over the diffs belonging to `key`: a diff is staged
when its time is strictly earlier than `start` (these come first), or its
time equals `start` and the orientation rule
`key < src ∨ (key = src ∧ v < dst)` holds. -/
def admittedDiffs (key src dst start : Nat) (ds : List Diff) : List Diff :=
  ds.filter (fun d => decide (d.t < start))
    ++ ds.filter (fun d => decide (d.t = start)
        && decide (key < src ∨ (key = src ∧ d.v < dst)))

/-- C2: for a prefix `p` with key `f p`, root source `get_src p` and root
destination `get_dst p`, `forward_propose` stages exactly the compact
values (weight 1), the committed `proposals()` slice, and the `(v, w)` of
every uncommitted diff of key `f p` admitted by the rule: time before
`start`, or time equal to `start` and `key < src ∨ (key = src ∧ v < dst)`;
the staged proposals are consolidated (positive totals kept) and appended
to `p`'s extensions except values `p` already contains. -/
theorem claim_C2 {W : Type} (s : Index) (p : Pfx) (exts : List Nat) (w : W)
    (f : Pfx → Nat) (start : Nat)
    (hsort : List.Pairwise diffRel s.diffs.updates) :
    s.forward_propose [(p, exts, w)] f start
      = ([(p, proposeExts p exts (consolidate_proposals
            ((s.compact.values_from (f p) 0).1.map (fun v => (v, (1 : Int)))
              ++ (proposalsEntry s.edges (f p)).2
              ++ (admittedDiffs (f p) (getSrc p) (getDst p) start
                    (s.diffs.updates.filter (fun d => decide (d.k = f p)))).map
                  (fun d => (d.v, d.w)))), w)],
         { s with edges := (proposalsEntry s.edges (f p)).1 }) := by
  have hslice := unsorted_values_from_zero s.diffs (f p) hsort
  simp only [Index.forward_propose, List.insertionSort, List.orderedInsert]
  rw [show ((p, exts, w) :: ([] : List (Pfx × List Nat × W))).length = 0 + 1 from rfl]
  rw [fpLoop_singleton]
  simp only [Prod.mk.injEq]
  refine ⟨?_, trivial⟩
  rw [hslice]
  rcases Nat.lt_trichotomy (getSrc p) (f p) with hc | hc | hc
  · rw [fpGroup_singleton_lt _ _ _ _ _ hc]
    have hlate : (s.diffs.updates.filter (fun d => decide (d.k = f p))).filter
        (fun d => decide (d.t = start)
          && decide (f p < getSrc p ∨ (f p = getSrc p ∧ d.v < getDst p))) = [] := by
      rw [List.filter_eq_nil_iff]
      intro a ha
      simp only [Bool.and_eq_true, decide_eq_true_eq, not_and]
      intro _
      omega
    simp only [admittedDiffs, hlate, List.append_nil]
  · rw [fpGroup_singleton_eq _ _ _ _ _ hc]
    have hvs : List.Pairwise (fun a b : Diff => a.v ≤ b.v)
        (s.diffs.updates.filter (fun d => decide (d.k = f p))) :=
      filter_key_v_sorted (f p) s.diffs.updates hsort
    have htf : (s.diffs.updates.filter (fun d => decide (d.k = f p))).takeWhile
          (fun d => decide (d.v < getDst p))
        = (s.diffs.updates.filter (fun d => decide (d.k = f p))).filter
          (fun d => decide (d.v < getDst p)) := by
      apply takeWhile_eq_filter_of_sorted (fun a b : Diff => a.v ≤ b.v) _ _ _ hvs
      intro a b hab hb
      simp only [decide_eq_true_eq] at hb ⊢
      omega
    have hseg : ((s.diffs.updates.filter (fun d => decide (d.k = f p))).filter
          (fun d => decide (d.v < getDst p))).filter (fun d => decide (d.t = start))
        = (s.diffs.updates.filter (fun d => decide (d.k = f p))).filter
          (fun d => decide (d.t = start)
            && decide (f p < getSrc p ∨ (f p = getSrc p ∧ d.v < getDst p))) := by
      rw [List.filter_filter]
      apply List.filter_congr
      intro d hd
      have hiff : (d.v < getDst p)
          ↔ (f p < getSrc p ∨ (f p = getSrc p ∧ d.v < getDst p)) := by omega
      rw [decide_eq_decide.mpr hiff]
    rw [htf, hseg]
    simp only [admittedDiffs, List.map_append, List.append_assoc]
  · rw [fpGroup_singleton_gt _ _ _ _ _ hc]
    have hrule : (s.diffs.updates.filter (fun d => decide (d.k = f p))).filter
          (fun d => decide (d.t = start)
            && decide (f p < getSrc p ∨ (f p = getSrc p ∧ d.v < getDst p)))
        = (s.diffs.updates.filter (fun d => decide (d.k = f p))).filter
          (fun d => decide (d.t = start)) := by
      apply List.filter_congr
      intro d hd
      have htr : (f p < getSrc p ∨ (f p = getSrc p ∧ d.v < getDst p)) := Or.inl hc
      rw [decide_eq_true htr, Bool.and_true]
    simp only [admittedDiffs, hrule, List.map_append, List.append_assoc]

/-- C2's worked scenario: a single uncommitted diff `(k = 5, v = 7, t = 3, +1)`. -/
def c2Index : Index := ⟨⟨[], []⟩, [], ⟨[⟨5, 7, 3, 1⟩], some 3⟩⟩

/-- C2 witness: the prefix `[5, 9]` (src 5, dst 9) with key `get_src = 5` at
`start = 3` admits the diff `(5, 7, 3, +1)` (5 = 5 ∧ 7 < 9) and extends to
`[7]`; evaluated on `c2Index`. -/
theorem claim_C2_witness :
    c2Index.forward_propose [([5, 9], [], (1 : Int))] getSrc 3
      = ([(([5, 9] : Pfx), [7], (1 : Int))], c2Index) := by
  have h := claim_C2 c2Index [5, 9] [] (1 : Int) getSrc 3
    (List.pairwise_singleton _ _)
  rw [h]
  rfl

/-! ### C3: GenericJoin::extend and Index::count (src/timely_rule/mod.rs) -/

/-- The `StreamPrefixExtender` trait, embedded as a record of list
transformers (extensions are `Nat` node ids, counts and idents `u64`). -/
structure StreamPrefixExtender (W : Type) where
  count : List (Pfx × Nat × Nat × W) → Nat → List (Pfx × Nat × Nat × W)
  propose : List (Pfx × W) → List (Pfx × List Nat × W)
  intersect : List (Pfx × List Nat × W) → List (Pfx × List Nat × W)

/-- `GenericJoin::extend`: a sole extender proposes directly; otherwise seed
every prefix with `(1 << 31, 0)`, run every extender's count pass in index
order, partition records by their final ident, extend each part by its
extender's propose filtered through every other extender's intersect, and
concatenate the parts. -/
def extendJoin {W : Type} (data : List (Pfx × W)) :
    List (StreamPrefixExtender W) → List (Pfx × List Nat × W)
  | [e] => e.propose data
  | extenders =>
    let counts0 : List (Pfx × Nat × Nat × W) :=
      data.map (fun pw => (pw.1, 2 ^ 31, 0, pw.2))
    let counts := extenders.enum.foldl (fun cs ie => ie.2.count cs ie.1) counts0
    let results := extenders.enum.map (fun ie =>
      let nominations := counts.filterMap (fun c =>
        if c.2.2.1 = ie.1 then some (c.1, c.2.2.2) else none)
      (extenders.enum.filter (fun je => decide (je.1 ≠ ie.1))).foldl
        (fun ex je => je.2.intersect ex) (ie.2.propose nominations))
    results.flatten

/-- The per-key upper bound `Index::count` computes: the compact slice's
length, plus the committed `EdgeList::count` cast `as u64`, plus (when the
diff buffer may be relevant) the key's diff slice length. -/
def countBound (s : Index) (possible : Bool) (key : Nat) : Nat :=
  (s.compact.values_from key 0).1.length
    + (match edgesGet s.edges key with
       | some e => intToU64 e.count
       | none => 0)
    + (if possible then (s.diffs.values_from key 0).1.length else 0)

/-- The overwrite rule of one count pass on one record: take the index's
bound and ident exactly when the bound is strictly smaller than the
recorded count. -/
def countOverwrite {W : Type} (s : Index) (f : Pfx → Nat) (possible : Bool)
    (ident : Nat) (y : Pfx × Nat × Nat × W) : Pfx × Nat × Nat × W :=
  if countBound s possible (f y.1) < y.2.1
  then (y.1, countBound s possible (f y.1), ident, y.2.2.2)
  else y

/-- Key-table and diff-buffer sortedness, as `CompactIndex::load` and
`Unsorted::extend` maintain them. -/
def IndexSorted (s : Index) : Prop :=
  List.Pairwise (fun a b : Nat × Nat => a.1 < b.1) s.compact.keys
    ∧ List.Pairwise diffRel s.diffs.updates

/-- The `(count, ident)` selection a seeded record undergoes across the
count passes, over the list of `(extender index, bound)` pairs. -/
def selFold (c id : Nat) (ibs : List (Nat × Nat)) : Nat × Nat :=
  ibs.foldl (fun ci ib => if ib.2 < ci.1 then (ib.2, ib.1) else ci) (c, id)

theorem takeWhile_drop_of_le {α : Type} :
    ∀ (l : List α) (p : α → Bool) (n : Nat), n ≤ (l.takeWhile p).length →
      (l.drop n).takeWhile p = (l.takeWhile p).drop n := by
  intro l
  induction l with
  | nil => intro p n _; simp
  | cons x xs ih =>
    intro p n hn
    cases n with
    | zero => simp
    | succ m =>
      by_cases hp : p x = true
      · rw [List.takeWhile_cons, if_pos hp] at hn ⊢
        simp only [List.length_cons, Nat.succ_le_succ_iff] at hn
        simpa using ih p m hn
      · rw [List.takeWhile_cons, if_neg hp] at hn
        simp at hn

theorem takeWhile_length_mono {α : Type} (p q : α → Bool)
    (h : ∀ x, p x = true → q x = true) :
    ∀ l : List α, (l.takeWhile p).length ≤ (l.takeWhile q).length := by
  intro l
  induction l with
  | nil => simp
  | cons x xs ih =>
    rw [List.takeWhile_cons, List.takeWhile_cons]
    by_cases hp : p x = true
    · rw [if_pos hp, if_pos (h x hp)]
      simpa using ih
    · rw [if_neg hp]
      simp

theorem takeWhile_dropWhile_split {α : Type} (p q : α → Bool)
    (h : ∀ x, p x = true → q x = true) :
    ∀ l : List α, l.takeWhile q = l.takeWhile p ++ (l.dropWhile p).takeWhile q := by
  intro l
  induction l with
  | nil => simp
  | cons x xs ih =>
    by_cases hp : p x = true
    · rw [List.takeWhile_cons, List.takeWhile_cons, if_pos hp, if_pos (h x hp),
        List.dropWhile_cons_of_pos hp]
      simpa using ih
    · rw [List.dropWhile_cons_of_neg hp]
      conv_rhs => rw [List.takeWhile_cons, if_neg hp]
      rw [List.nil_append]

/-- Keys of the compacted table are monotone by position. -/
theorem pairwise_fst_mono (l : List (Nat × Nat))
    (h : List.Pairwise (fun a b : Nat × Nat => a.1 < b.1) l)
    (i j : Nat) (hij : i ≤ j) (hj : j < l.length) :
    (l.get ⟨i, Nat.lt_of_le_of_lt hij hj⟩).1 ≤ (l.get ⟨j, hj⟩).1 := by
  rcases Nat.lt_or_ge i j with hlt | hge
  · have h2 := List.pairwise_iff_get.mp h ⟨i, Nat.lt_of_le_of_lt hij hj⟩ ⟨j, hj⟩ hlt
    omega
  · have hij2 : i = j := Nat.le_antisymm hij hge
    subst hij2
    exact Nat.le_refl _

/-- `advance` with a `< key` test on a strictly sorted key table counts its
`< key` prefix; stated for any suffix of the table. -/
theorem advance_keys_lt (ks : List (Nat × Nat)) (key : Nat)
    (h : List.Pairwise (fun a b : Nat × Nat => a.1 < b.1) ks) :
    advance ks (fun x => decide (x.1 < key))
      = (ks.takeWhile (fun x => decide (x.1 < key))).length := by
  apply advance_eq_takeWhile_length
  intro i j hij hj hfj
  simp only [decide_eq_true_eq] at hfj ⊢
  have := pairwise_fst_mono ks h i j hij hj
  omega

/-- Cursor independence of `CompactIndex::values_from`: as long as the
cursor has not run past the `< key` prefix of the table, the result does
not depend on it. -/
theorem compact_values_from_cursor (c : CompactIndex) (key ccur : Nat)
    (hs : List.Pairwise (fun a b : Nat × Nat => a.1 < b.1) c.keys)
    (hcc : ccur ≤ (c.keys.takeWhile (fun e => decide (e.1 < key))).length) :
    c.values_from key ccur = c.values_from key 0 := by
  have hK := takeWhile_length_le c.keys (fun e => decide (e.1 < key))
  have hadv0 : advance c.keys (fun x => decide (x.1 < key))
      = (c.keys.takeWhile (fun x => decide (x.1 < key))).length :=
    advance_keys_lt c.keys key hs
  by_cases hclt : ccur < c.keys.length
  · have hdropsorted : List.Pairwise (fun a b : Nat × Nat => a.1 < b.1)
        (c.keys.drop ccur) :=
      List.Pairwise.sublist (List.drop_sublist _ _) hs
    have hadvc : advance (c.keys.drop ccur) (fun x => decide (x.1 < key))
        = (c.keys.takeWhile (fun x => decide (x.1 < key))).length - ccur := by
      rw [advance_keys_lt _ key hdropsorted, takeWhile_drop_of_le _ _ _ hcc,
        List.length_drop]
    have h0 : 0 < c.keys.length := Nat.lt_of_le_of_lt (Nat.zero_le _) hclt
    have e1 : ccur + advance (c.keys.drop ccur) (fun x => decide (x.1 < key))
        = (c.keys.takeWhile (fun x => decide (x.1 < key))).length := by
      rw [hadvc]; omega
    have e2 : 0 + advance (c.keys.drop 0) (fun x => decide (x.1 < key))
        = (c.keys.takeWhile (fun x => decide (x.1 < key))).length := by
      rw [List.drop_zero, hadv0]; omega
    simp only [CompactIndex.values_from, e1, e2, if_pos hclt, if_pos h0]
  · have hceq : ccur = c.keys.length := by omega
    have hKeq : (c.keys.takeWhile (fun e => decide (e.1 < key))).length
        = c.keys.length := by omega
    by_cases h0 : 0 < c.keys.length
    · have e2 : 0 + advance (c.keys.drop 0) (fun x => decide (x.1 < key))
          = c.keys.length := by
        rw [List.drop_zero, hadv0, hKeq]; omega
      have hinner : ¬ (c.keys.length < c.keys.length ∧
          (c.keys.getD c.keys.length (0, 0)).1 = key) := by
        intro hcon
        omega
      simp only [CompactIndex.values_from, e2, if_neg hclt, if_pos h0,
        if_neg hinner]
      rw [hceq]
    · have hlen : c.keys.length = 0 := by omega
      have hc0 : ccur = 0 := by omega
      simp only [CompactIndex.values_from, hc0]
theorem advance_diffs_lt (ds : List Diff) (key : Nat)
    (h : List.Pairwise diffRel ds) :
    advance ds (fun x => decide (x.k < key))
      = (ds.takeWhile (fun x => decide (x.k < key))).length := by
  apply advance_eq_takeWhile_length
  intro i j hij hj hfj
  simp only [decide_eq_true_eq] at hfj ⊢
  have := pairwise_key_mono ds h i j hij hj
  omega

theorem advance_diffs_le (ds : List Diff) (key : Nat)
    (h : List.Pairwise diffRel ds) :
    advance ds (fun x => decide (x.k ≤ key))
      = (ds.takeWhile (fun x => decide (x.k ≤ key))).length := by
  apply advance_eq_takeWhile_length
  intro i j hij hj hfj
  simp only [decide_eq_true_eq] at hfj ⊢
  have := pairwise_key_mono ds h i j hij hj
  omega

/-- Cursor independence of `Unsorted::values_from`: as long as the cursor
has not run past the `< key` prefix of the buffer, the result does not
depend on it. -/
theorem unsorted_values_from_cursor (u : Unsorted) (key dcur : Nat)
    (hs : List.Pairwise diffRel u.updates)
    (hdc : dcur ≤ (u.updates.takeWhile (fun d => decide (d.k < key))).length) :
    u.values_from key dcur = u.values_from key 0 := by
  have hdropsorted : List.Pairwise diffRel (u.updates.drop dcur) :=
    List.Pairwise.sublist (List.drop_sublist _ _) hs
  have e1 : dcur + advance (u.updates.drop dcur) (fun x => decide (x.k < key))
      = (u.updates.takeWhile (fun x => decide (x.k < key))).length := by
    rw [advance_diffs_lt _ key hdropsorted, takeWhile_drop_of_le _ _ _ hdc,
      List.length_drop]
    omega
  have e2 : 0 + advance (u.updates.drop 0) (fun x => decide (x.k < key))
      = (u.updates.takeWhile (fun x => decide (x.k < key))).length := by
    rw [List.drop_zero, advance_diffs_lt _ key hs]
    omega
  simp only [Unsorted.values_from, e1, e2]

/-- The cursor `Unsorted::values_from key` leaves behind: just past the
`≤ key` prefix of the buffer. -/
theorem unsorted_values_from_snd (u : Unsorted) (key : Nat)
    (hs : List.Pairwise diffRel u.updates) :
    (u.values_from key 0).2
      = (u.updates.takeWhile (fun d => decide (d.k ≤ key))).length := by
  have e2 : 0 + advance (u.updates.drop 0) (fun x => decide (x.k < key))
      = (u.updates.takeWhile (fun x => decide (x.k < key))).length := by
    rw [List.drop_zero, advance_diffs_lt _ key hs]
    omega
  have hdw : u.updates.drop
        (u.updates.takeWhile (fun x => decide (x.k < key))).length
      = u.updates.dropWhile (fun x => decide (x.k < key)) :=
    drop_takeWhile_length _ _
  have hdwsorted : List.Pairwise diffRel
      (u.updates.dropWhile (fun x => decide (x.k < key))) :=
    List.Pairwise.sublist (List.dropWhile_sublist _) hs
  have himp : ∀ d : Diff, decide (d.k < key) = true → decide (d.k ≤ key) = true := by
    intro d hd
    simp only [decide_eq_true_eq] at hd ⊢
    omega
  simp only [Unsorted.values_from, e2, hdw,
    advance_diffs_le _ key hdwsorted]
  rw [takeWhile_dropWhile_split (fun x => decide (x.k < key))
    (fun x => decide (x.k ≤ key)) himp u.updates, List.length_append]

/-- The cursor `CompactIndex::values_from key` leaves behind still lies
within the `< key2` prefix of the table, for any larger key2. -/
theorem compact_values_from_snd_le (c : CompactIndex) (key key2 : Nat)
    (hs : List.Pairwise (fun a b : Nat × Nat => a.1 < b.1) c.keys)
    (hkk : key < key2) :
    (c.values_from key 0).2
      ≤ (c.keys.takeWhile (fun e => decide (e.1 < key2))).length := by
  by_cases h0 : 0 < c.keys.length
  · have e2 : 0 + advance (c.keys.drop 0) (fun x => decide (x.1 < key))
        = (c.keys.takeWhile (fun x => decide (x.1 < key))).length := by
      rw [List.drop_zero, advance_keys_lt _ key hs]
      omega
    have hmono : (c.keys.takeWhile (fun e => decide (e.1 < key))).length
        ≤ (c.keys.takeWhile (fun e => decide (e.1 < key2))).length := by
      apply takeWhile_length_mono
      intro e he
      simp only [decide_eq_true_eq] at he ⊢
      omega
    simp only [CompactIndex.values_from, e2, if_pos h0]
    by_cases hp : (c.keys.takeWhile (fun x => decide (x.1 < key))).length
          < c.keys.length
        ∧ (c.keys.getD
            (c.keys.takeWhile (fun x => decide (x.1 < key))).length (0, 0)).1
          = key
    · rw [if_pos hp]
      by_contra hcon
      push_neg at hcon
      have hle : (c.keys.takeWhile (fun e => decide (e.1 < key2))).length
          ≤ (c.keys.takeWhile (fun x => decide (x.1 < key))).length := by omega
      have hlt2 : (c.keys.takeWhile (fun e => decide (e.1 < key2))).length
          < c.keys.length := Nat.lt_of_le_of_lt hle hp.1
      have hfalse := f_false_at_takeWhile_length c.keys
        (fun e => decide (e.1 < key2)) hlt2
      rcases Nat.lt_or_ge (c.keys.takeWhile (fun e => decide (e.1 < key2))).length
          (c.keys.takeWhile (fun x => decide (x.1 < key))).length with hlt | hge
      · have htrue := f_true_of_lt_takeWhile_length c.keys
          (fun x => decide (x.1 < key)) _ hlt2 hlt
        simp only [decide_eq_true_eq] at htrue
        simp only [decide_eq_false_iff_not, decide_eq_true_eq,
          List.get_eq_getElem] at hfalse
        omega
      · have heq : (c.keys.takeWhile (fun e => decide (e.1 < key2))).length
            = (c.keys.takeWhile (fun x => decide (x.1 < key))).length := by omega
        have hget := hp.2
        rw [List.getD_eq_getElem _ _ hp.1] at hget
        simp only [decide_eq_false_iff_not, decide_eq_true_eq,
          List.get_eq_getElem, heq] at hfalse
        omega
    · rw [if_neg hp]
      exact hmono
  · simp only [CompactIndex.values_from, if_neg h0]
    exact Nat.zero_le _

/-- After dropping the leading `= key` group from a key-sorted list whose
keys all are at least `key`, every remaining key is strictly larger. -/
theorem mem_dropWhile_ne_gt {α : Type} (f : α → Nat) (key : Nat) :
    ∀ l : List α, List.Pairwise (fun a b => f a ≤ f b) l →
      (∀ y ∈ l, key ≤ f y) →
      ∀ y ∈ l.dropWhile (fun z => decide (f z = key)), key < f y := by
  intro l
  induction l with
  | nil => intro _ _ y hy; simp at hy
  | cons a as ih =>
    intro h hall y hy
    rcases List.pairwise_cons.mp h with ⟨ha, has⟩
    by_cases hak : f a = key
    · rw [List.dropWhile_cons_of_pos (by simpa using hak)] at hy
      refine ih has (fun z hz => ?_) y hy
      have := ha z hz
      omega
    · rw [List.dropWhile_cons_of_neg (by simpa using hak)] at hy
      rcases List.mem_cons.mp hy with rfl | hmem
      · have := hall y (List.mem_cons_self _ _)
        omega
      · have h1 := ha y hmem
        have h2 := hall a (List.mem_cons_self _ _)
        omega

/-- The grouped loop of `Index::count` on key-sorted data with valid
cursors applies the overwrite rule to every record. -/
theorem countLoop_spec {W : Type} (s : Index) (f : Pfx → Nat) (possible : Bool)
    (ident : Nat) (hs : IndexSorted s) :
    ∀ (fuel : Nat) (data : List (Pfx × Nat × Nat × W)) (ccur dcur : Nat),
      data.length ≤ fuel →
      List.Pairwise (fun a b => f a.1 ≤ f b.1) data →
      (∀ y ∈ data,
        ccur ≤ (s.compact.keys.takeWhile (fun e => decide (e.1 < f y.1))).length) →
      (∀ y ∈ data,
        dcur ≤ (s.diffs.updates.takeWhile (fun d => decide (d.k < f y.1))).length) →
      countLoop s f possible ident fuel ccur dcur data
        = data.map (countOverwrite s f possible ident) := by
  intro fuel
  induction fuel with
  | zero =>
    intro data ccur dcur hlen _ _ _
    have hnil : data = [] := List.eq_nil_of_length_eq_zero (Nat.le_zero.mp hlen)
    subst hnil
    rfl
  | succ n ih =>
    intro data ccur dcur hlen hsorted hcc hdc
    cases data with
    | nil => rfl
    | cons x xs =>
      have hccx := hcc x (List.mem_cons_self x xs)
      have hdcx := hdc x (List.mem_cons_self x xs)
      have hcres : s.compact.values_from (f x.1) ccur
          = s.compact.values_from (f x.1) 0 :=
        compact_values_from_cursor _ _ _ hs.1 hccx
      have hdres : s.diffs.values_from (f x.1) dcur
          = s.diffs.values_from (f x.1) 0 :=
        unsorted_values_from_cursor _ _ _ hs.2 hdcx
      have hall : ∀ y ∈ x :: xs, f x.1 ≤ f y.1 := by
        intro y hy
        rcases List.mem_cons.mp hy with rfl | hmem
        · exact Nat.le_refl _
        · exact (List.pairwise_cons.mp hsorted).1 y hmem
      have hgt : ∀ y ∈ (x :: xs).dropWhile (fun z => decide (f z.1 = f x.1)),
          f x.1 < f y.1 :=
        mem_dropWhile_ne_gt (fun z => f z.1) (f x.1) (x :: xs) hsorted hall
      simp only [countLoop, hcres, hdres]
      have hlen1 : (if possible then s.diffs.values_from (f x.1) 0
            else (([] : List Diff), dcur)).1.length
          = (if possible then (s.diffs.values_from (f x.1) 0).1.length else 0) := by
        cases possible <;> rfl
      rw [hlen1]
      have hbound : (s.compact.values_from (f x.1) 0).1.length
            + (match edgesGet s.edges (f x.1) with
               | some e => intToU64 e.count
               | none => 0)
            + (if possible then (s.diffs.values_from (f x.1) 0).1.length else 0)
          = countBound s possible (f x.1) := rfl
      rw [hbound]
      conv_rhs => rw [← List.takeWhile_append_dropWhile
        (fun y => decide (f y.1 = f x.1)) (x :: xs), List.map_append]
      congr 1
      · apply List.map_congr_left
        intro y hy
        have hkey : f y.1 = f x.1 := by
          simpa using List.mem_takeWhile_imp hy
        simp only [countOverwrite, hkey]
      · have hrest : (x :: xs).dropWhile (fun z => decide (f z.1 = f x.1))
            = xs.dropWhile (fun z => decide (f z.1 = f x.1)) := by
          rw [List.dropWhile_cons_of_pos]
          simp
        have hrestlen : ((x :: xs).dropWhile
            (fun z => decide (f z.1 = f x.1))).length ≤ n := by
          rw [hrest]
          have hsub : List.Sublist
              (xs.dropWhile (fun z => decide (f z.1 = f x.1))) xs :=
            List.dropWhile_sublist _
          have := hsub.length_le
          simp only [List.length_cons] at hlen
          omega
        apply ih
        · exact hrestlen
        · exact List.Pairwise.sublist (List.dropWhile_sublist _) hsorted
        · intro y hy
          exact compact_values_from_snd_le s.compact (f x.1) (f y.1) hs.1
            (hgt y hy)
        · intro y hy
          have hgty := hgt y hy
          cases possible with
          | false =>
            show dcur ≤ _
            exact hdc y ((List.dropWhile_sublist _).mem hy)
          | true =>
            show (s.diffs.values_from (f x.1) 0).2 ≤ _
            rw [unsorted_values_from_snd _ _ hs.2]
            apply takeWhile_length_mono
            intro d hd
            simp only [decide_eq_true_eq] at hd ⊢
            omega

/-- `Index::count` is, up to the sorting permutation, the pointwise
overwrite rule applied to every record. -/
theorem index_count_perm {W : Type} (s : Index) (data : List (Pfx × Nat × Nat × W))
    (f : Pfx → Nat) (start ident : Nat) (hs : IndexSorted s) :
    (Index.count s data f start ident).Perm
      (data.map (countOverwrite s f (countPossible s start) ident)) := by
  haveI hto : IsTotal (Pfx × Nat × Nat × W) (fun a b => f a.1 ≤ f b.1) :=
    ⟨fun a b => Nat.le_total _ _⟩
  haveI htr : IsTrans (Pfx × Nat × Nat × W) (fun a b => f a.1 ≤ f b.1) :=
    ⟨fun a b c h1 h2 => Nat.le_trans h1 h2⟩
  have hsorted : List.Pairwise (fun a b => f a.1 ≤ f b.1)
      (data.insertionSort (fun a b => f a.1 ≤ f b.1)) :=
    List.sorted_insertionSort _ _
  have hspec := countLoop_spec s f (countPossible s start) ident hs
    (data.insertionSort (fun a b => f a.1 ≤ f b.1)).length
    (data.insertionSort (fun a b => f a.1 ≤ f b.1)) 0 0
    (Nat.le_refl _) hsorted
    (fun y _ => Nat.zero_le _) (fun y _ => Nat.zero_le _)
  show countLoop s f (countPossible s start) ident
      (data.insertionSort (fun x y => f x.1 ≤ f y.1)).length 0 0
      (data.insertionSort (fun x y => f x.1 ≤ f y.1))
    |>.Perm (data.map (countOverwrite s f (countPossible s start) ident))
  rw [hspec]
  exact (List.perm_insertionSort _ _).map _
theorem selFold_cons (c id : Nat) (ib : Nat × Nat) (rest : List (Nat × Nat)) :
    selFold c id (ib :: rest)
      = if ib.2 < c then selFold ib.2 ib.1 rest else selFold c id rest := by
  simp only [selFold, List.foldl_cons]
  by_cases hb : ib.2 < c
  · rw [if_pos hb, if_pos hb]
  · rw [if_neg hb, if_neg hb]

/-- The strict-improvement fold keeps the minimum of the seed and the
bounds; the kept value is attained (or is the untouched seed), a final
value equal to the seed means no step fired, and among equal bounds the
earliest (least-index) one is kept. -/
theorem selFold_spec :
    ∀ (ibs : List (Nat × Nat)) (c id : Nat),
      List.Pairwise (fun x y : Nat × Nat => x.1 < y.1) ibs →
      (∀ ib ∈ ibs, id ≤ ib.1) →
      ((selFold c id ibs).1 ≤ c ∧ ∀ ib ∈ ibs, (selFold c id ibs).1 ≤ ib.2)
      ∧ (selFold c id ibs = (c, id) ∨ ∃ ib ∈ ibs, selFold c id ibs = (ib.2, ib.1))
      ∧ ((selFold c id ibs).1 = c → selFold c id ibs = (c, id))
      ∧ (∀ ib ∈ ibs, ib.2 = (selFold c id ibs).1 → (selFold c id ibs).2 ≤ ib.1) := by
  intro ibs
  induction ibs with
  | nil =>
    intro c id _ _
    refine ⟨⟨Nat.le_refl _, ?_⟩, Or.inl rfl, fun _ => rfl, ?_⟩
    · intro ib hib; simp at hib
    · intro ib hib; simp at hib
  | cons ib0 rest ih =>
    intro c id hp hid
    rcases List.pairwise_cons.mp hp with ⟨hib0, hrest⟩
    rw [selFold_cons]
    by_cases hb : ib0.2 < c
    · rw [if_pos hb]
      obtain ⟨⟨h1a, h1b⟩, h2, h3, h4⟩ := ih ib0.2 ib0.1 hrest
        (fun jb hjb => Nat.le_of_lt (hib0 jb hjb))
      refine ⟨⟨by omega, ?_⟩, ?_, ?_, ?_⟩
      · intro ib hib
        rcases List.mem_cons.mp hib with rfl | hmem
        · exact h1a
        · exact h1b ib hmem
      · rcases h2 with he | ⟨jb, hjb, he⟩
        · exact Or.inr ⟨ib0, List.mem_cons_self _ _, he⟩
        · exact Or.inr ⟨jb, List.mem_cons_of_mem _ hjb, he⟩
      · intro hc
        exfalso
        omega
      · intro ib hib hbr
        rcases List.mem_cons.mp hib with rfl | hmem
        · have he := h3 hbr.symm
          rw [he]
        · exact h4 ib hmem hbr
    · rw [if_neg hb]
      obtain ⟨⟨h1a, h1b⟩, h2, h3, h4⟩ := ih c id hrest
        (fun jb hjb => hid jb (List.mem_cons_of_mem _ hjb))
      refine ⟨⟨h1a, ?_⟩, ?_, h3, ?_⟩
      · intro ib hib
        rcases List.mem_cons.mp hib with rfl | hmem
        · omega
        · exact h1b ib hmem
      · rcases h2 with he | ⟨jb, hjb, he⟩
        · exact Or.inl he
        · exact Or.inr ⟨jb, List.mem_cons_of_mem _ hjb, he⟩
      · intro ib hib hbr
        rcases List.mem_cons.mp hib with rfl | hmem
        · have hrc : (selFold c id rest).1 = c := by omega
          have he := h3 hrc
          rw [he]
          exact hid ib (List.mem_cons_self _ _)
        · exact h4 ib hmem hbr

theorem pairwise_enum_fst {α : Type} (l : List α) :
    List.Pairwise (fun x y : Nat × α => x.1 < y.1) l.enum := by
  rw [List.pairwise_iff_get]
  intro i j hij
  simp only [List.get_eq_getElem, List.getElem_enum]
  simpa using hij

/-- One record's journey through the count passes: the successive
overwrites are exactly the strict-improvement fold over the indexed
bounds. -/
theorem overwriteFold_eq {W : Type} (start : Nat) (p : Pfx) (w : W) :
    ∀ (ies : List (Nat × Index × (Pfx → Nat))) (c id : Nat),
      ies.foldl (fun z ie =>
          countOverwrite ie.2.1 ie.2.2 (countPossible ie.2.1 start) ie.1 z)
        (p, c, id, w)
      = (p,
         (selFold c id (ies.map (fun ie => (ie.1,
           countBound ie.2.1 (countPossible ie.2.1 start) (ie.2.2 p))))).1,
         (selFold c id (ies.map (fun ie => (ie.1,
           countBound ie.2.1 (countPossible ie.2.1 start) (ie.2.2 p))))).2,
         w) := by
  intro ies
  induction ies with
  | nil =>
    intro c id
    simp [selFold]
  | cons ie rest ih =>
    intro c id
    simp only [List.foldl_cons, List.map_cons, selFold_cons]
    by_cases hb : countBound ie.2.1 (countPossible ie.2.1 start) (ie.2.2 p) < c
    · rw [if_pos hb]
      have hstep : countOverwrite ie.2.1 ie.2.2 (countPossible ie.2.1 start) ie.1
            (p, c, id, w)
          = (p, countBound ie.2.1 (countPossible ie.2.1 start) (ie.2.2 p), ie.1, w) := by
        simp only [countOverwrite]
        rw [if_pos hb]
      rw [hstep]
      exact ih _ _
    · rw [if_neg hb]
      have hstep : countOverwrite ie.2.1 ie.2.2 (countPossible ie.2.1 start) ie.1
            (p, c, id, w)
          = (p, c, id, w) := by
        simp only [countOverwrite]
        rw [if_neg hb]
      rw [hstep]
      exact ih _ _

/-- Folding the count passes of a list of indexed `Index`es over the data
applies, up to permutation, the per-record overwrite fold to every
record. -/
theorem countPasses_perm {W : Type} (start : Nat) :
    ∀ (ies : List (Nat × Index × (Pfx → Nat)))
      (data data2 : List (Pfx × Nat × Nat × W)),
      data.Perm data2 →
      (∀ ie ∈ ies, IndexSorted ie.2.1) →
      (ies.foldl (fun cs ie => Index.count ie.2.1 cs ie.2.2 start ie.1)
          data).Perm
        (data2.map (fun y => ies.foldl (fun z ie =>
          countOverwrite ie.2.1 ie.2.2 (countPossible ie.2.1 start) ie.1 z) y)) := by
  intro ies
  induction ies with
  | nil =>
    intro data data2 hperm _
    simpa using hperm
  | cons ie rest ih =>
    intro data data2 hperm hws
    simp only [List.foldl_cons]
    have h1 : (Index.count ie.2.1 data ie.2.2 start ie.1).Perm
        (data2.map (countOverwrite ie.2.1 ie.2.2 (countPossible ie.2.1 start) ie.1)) :=
      (index_count_perm _ _ _ _ _ (hws ie (List.mem_cons_self _ _))).trans
        (hperm.map _)
    have h2 := ih (Index.count ie.2.1 data ie.2.2 start ie.1)
      (data2.map (countOverwrite ie.2.1 ie.2.2 (countPossible ie.2.1 start) ie.1))
      h1 (fun je hje => hws je (List.mem_cons_of_mem _ hje))
    rw [List.map_map] at h2
    exact h2

/-- C3: `extend` with a single extender returns its propose directly.  A
count pass (`Index::count`) rewrites — up to the key sort's permutation —
every record by the overwrite rule of `countOverwrite`: take the pass's
bound and ident exactly when the bound is strictly smaller than the
recorded count.  Across the passes a record seeded `(1 << 31, 0)` ends with
the strict-improvement selection over the indexed bounds, whose kept value
is the minimum with the `1 << 31` sentinel, is attained when any step
fired, and on ties keeps the least extender index. -/
theorem claim_C3 {W : Type} :
    (∀ (data : List (Pfx × W)) (e : StreamPrefixExtender W),
      extendJoin data [e] = e.propose data)
    ∧ (∀ (s : Index) (data : List (Pfx × Nat × Nat × W)) (f : Pfx → Nat)
        (start ident : Nat), IndexSorted s →
        (Index.count s data f start ident).Perm
          (data.map (countOverwrite s f (countPossible s start) ident)))
    ∧ (∀ (start : Nat) (ss : List (Index × (Pfx → Nat)))
        (data : List (Pfx × W)),
        (∀ sf ∈ ss, IndexSorted sf.1) →
        (ss.enum.foldl (fun cs ie => Index.count ie.2.1 cs ie.2.2 start ie.1)
            (data.map (fun pw => (pw.1, 2 ^ 31, 0, pw.2)))).Perm
          (data.map (fun pw => (pw.1,
            (selFold (2 ^ 31) 0 (ss.enum.map (fun ie => (ie.1,
              countBound ie.2.1 (countPossible ie.2.1 start) (ie.2.2 pw.1))))).1,
            (selFold (2 ^ 31) 0 (ss.enum.map (fun ie => (ie.1,
              countBound ie.2.1 (countPossible ie.2.1 start) (ie.2.2 pw.1))))).2,
            pw.2))))
    ∧ (∀ ibs : List (Nat × Nat),
        List.Pairwise (fun x y : Nat × Nat => x.1 < y.1) ibs →
        ((selFold (2 ^ 31) 0 ibs).1 ≤ 2 ^ 31
          ∧ (∀ ib ∈ ibs, (selFold (2 ^ 31) 0 ibs).1 ≤ ib.2)
          ∧ (selFold (2 ^ 31) 0 ibs = (2 ^ 31, 0)
              ∨ ∃ ib ∈ ibs, selFold (2 ^ 31) 0 ibs = (ib.2, ib.1))
          ∧ (∀ ib ∈ ibs, ib.2 = (selFold (2 ^ 31) 0 ibs).1
              → (selFold (2 ^ 31) 0 ibs).2 ≤ ib.1))) := by
  refine ⟨fun data e => rfl,
    fun s data f start ident hs => index_count_perm s data f start ident hs,
    ?_, ?_⟩
  · intro start ss data hws
    have hws2 : ∀ ie ∈ ss.enum, IndexSorted ie.2.1 := by
      intro ie hie
      rcases ie with ⟨i, sf⟩
      exact hws sf (List.snd_mem_of_mem_enum hie)
    have h := countPasses_perm start ss.enum
      (data.map (fun pw => (pw.1, 2 ^ 31, 0, pw.2)))
      (data.map (fun pw => (pw.1, 2 ^ 31, 0, pw.2)))
      (List.Perm.refl _) hws2
    rw [List.map_map] at h
    have hmm : data.map ((fun y => ss.enum.foldl (fun z ie =>
          countOverwrite ie.2.1 ie.2.2 (countPossible ie.2.1 start) ie.1 z) y)
          ∘ (fun pw => (pw.1, 2 ^ 31, 0, pw.2)))
        = data.map (fun pw => (pw.1,
            (selFold (2 ^ 31) 0 (ss.enum.map (fun ie => (ie.1,
              countBound ie.2.1 (countPossible ie.2.1 start) (ie.2.2 pw.1))))).1,
            (selFold (2 ^ 31) 0 (ss.enum.map (fun ie => (ie.1,
              countBound ie.2.1 (countPossible ie.2.1 start) (ie.2.2 pw.1))))).2,
            pw.2)) := by
      apply List.map_congr_left
      intro pw _
      exact overwriteFold_eq start pw.1 pw.2 ss.enum (2 ^ 31) 0
    rw [hmm] at h
    exact h
  · intro ibs hp
    obtain ⟨⟨h1a, h1b⟩, h2, _, h4⟩ :=
      selFold_spec ibs (2 ^ 31) 0 hp (fun ib _ => Nat.zero_le _)
    exact ⟨h1a, h1b, h2, h4⟩

/-- An `Index` whose sole committed `EdgeList` has a negative `count`: cast
`as u64` it becomes a huge bound. -/
def c3IndexA : Index := ⟨⟨[], []⟩, [(5, ⟨[], [], 0, -1⟩)], ⟨[], none⟩⟩

/-- As `c3IndexA` with an even larger wrapped bound strictly below it. -/
def c3IndexB : Index := ⟨⟨[], []⟩, [(5, ⟨[], [], 0, -2⟩)], ⟨[], none⟩⟩

/-- C3 counterexample: with both wrapped bounds above the `1 << 31` seed,
the minimal bound is attained uniquely at extender 1, yet no count pass
fires, the record keeps ident 0, and `extend` routes it to extender 0's
propose (tagged `[0]`), not to the least index attaining the minimal
bound. -/
theorem claim_C3_counterexample :
    2 ^ 31 < countBound c3IndexB false 5
    ∧ countBound c3IndexB false 5 < countBound c3IndexA false 5
    ∧ extendJoin [([5], (1 : Int))]
        [⟨fun cs i => Index.count c3IndexA cs (fun _ => 5) 0 i,
          fun ns => ns.map (fun pw => (pw.1, [0], pw.2)), fun ex => ex⟩,
         ⟨fun cs i => Index.count c3IndexB cs (fun _ => 5) 0 i,
          fun ns => ns.map (fun pw => (pw.1, [1], pw.2)), fun ex => ex⟩]
      = [([5], [0], (1 : Int))] := by
  refine ⟨by decide, by decide, ?_⟩
  rfl

/-- C3 witness: on the empty index the bound 0 beats the recorded count 5,
so the pass overwrites the record with `(0, ident)`. -/
theorem claim_C3_witness :
    IndexSorted Index.new
    ∧ (Index.count Index.new [([7], 5, 9, (1 : Int))] getSrc 0 3).Perm
        [([7], 0, 3, (1 : Int))] := by
  have hs : IndexSorted Index.new := ⟨List.Pairwise.nil, List.Pairwise.nil⟩
  refine ⟨hs, ?_⟩
  have h := (@claim_C3 Int).2.1 Index.new [([7], 5, 9, (1 : Int))] getSrc 0 3 hs
  have hev : ([([7], 5, 9, (1 : Int))].map
        (countOverwrite Index.new getSrc (countPossible Index.new 0) 3))
      = [([7], 0, 3, (1 : Int))] := rfl
  rw [hev] at h
  exact h

/-! ### C7: merge_to idempotence -/

theorem edgesSet_same (k : Nat) (e : EdgeList) :
    ∀ es : List (Nat × EdgeList), edgesGet es k = some e → edgesSet es k e = es := by
  intro es
  induction es with
  | nil => intro h; simp [edgesGet, List.lookup] at h
  | cons he rest ih =>
    rcases he with ⟨k0, e0⟩
    intro h
    rw [edgesSet]
    by_cases hk : k0 = k
    · rw [if_pos hk]
      have h2 : e0 = e := by
        rw [edgesGet, List.lookup] at h
        have hbeq : (k == k0) = true := by simp [hk]
        rw [hbeq] at h
        simpa using h
      rw [hk, h2]
    · rw [if_neg hk]
      rw [edgesGet, List.lookup] at h
      have hbeq : (k == k0) = false := by
        simp only [beq_eq_false_iff_ne, ne_eq]
        exact fun hc => hk hc.symm
      rw [hbeq] at h
      rw [ih h]

/-- `mergeRun` over a run with no ripe diff pushes nothing and leaves the
run untouched. -/
theorem mergeRun_unripe (time : Nat) :
    ∀ (run : List Diff) (e : EdgeList), (∀ d ∈ run, ¬ d.t ≤ time) →
      mergeRun time e run = (e, run) := by
  intro run
  induction run with
  | nil => intro e _; rfl
  | cons d ds ih =>
    intro e h
    rw [mergeRun, if_neg (h d (List.mem_cons_self _ _))]
    rw [ih e (fun x hx => h x (List.mem_cons_of_mem _ hx))]

/-- `seal_from` at the current write position (no pushes since `position`)
is a no-op: the `values.len() > position` guard fails. -/
theorem seal_from_position (e : EdgeList) : e.seal_from e.position = e := by
  rw [EdgeList.seal_from, if_neg]
  simp [EdgeList.position]

/-- The merge loop over a buffer of unripe diffs whose keys all have
committed entries changes nothing. -/
theorem mergeLoop_noop (time : Nat) :
    ∀ (fuel : Nat) (ds : List Diff) (es : List (Nat × EdgeList)),
      (∀ d ∈ ds, ¬ d.t ≤ time) →
      (∀ d ∈ ds, edgesGet es d.k ≠ none) →
      mergeLoop time fuel es ds = (es, ds) := by
  intro fuel
  induction fuel with
  | zero => intro ds es _ _; rfl
  | succ n ih =>
    intro ds es hripe hkey
    cases ds with
    | nil => rfl
    | cons d ds =>
      obtain ⟨e0, he0⟩ : ∃ e0, edgesGet es d.k = some e0 := by
        cases hget : edgesGet es d.k with
        | none => exact absurd hget (hkey d (List.mem_cons_self _ _))
        | some e0 => exact ⟨e0, rfl⟩
      have hrun : mergeRun time e0
            ((d :: ds).takeWhile (fun x => decide (x.k = d.k)))
          = (e0, (d :: ds).takeWhile (fun x => decide (x.k = d.k))) :=
        mergeRun_unripe time _ e0
          (fun x hx => hripe x ((List.takeWhile_prefix _).subset hx))
      have hset : edgesSet es d.k (e0.seal_from e0.position) = es := by
        rw [seal_from_position]
        exact edgesSet_same d.k e0 es he0
      have hrest : mergeLoop time n es
            ((d :: ds).dropWhile (fun x => decide (x.k = d.k)))
          = (es, (d :: ds).dropWhile (fun x => decide (x.k = d.k))) := by
        apply ih
        · intro x hx
          exact hripe x ((List.dropWhile_sublist _).mem hx)
        · intro x hx
          exact hkey x ((List.dropWhile_sublist _).mem hx)
      simp only [mergeLoop, he0, Option.getD_some, hrun, hset, hrest]
      rw [List.takeWhile_append_dropWhile]

/-- The diffs the merge loop returns: every diff in buffer order, ripe ones
zero-weighted. -/
theorem mergeLoop_snd (time : Nat) :
    ∀ (fuel : Nat) (ds : List Diff) (es : List (Nat × EdgeList)),
      ds.length ≤ fuel →
      (mergeLoop time fuel es ds).2
        = ds.map (fun d => if d.t ≤ time then { d with w := 0 } else d) := by
  intro fuel
  induction fuel with
  | zero =>
    intro ds es hlen
    have hnil : ds = [] := List.eq_nil_of_length_eq_zero (Nat.le_zero.mp hlen)
    subst hnil
    rfl
  | succ n ih =>
    intro ds es hlen
    cases ds with
    | nil => rfl
    | cons d ds =>
      simp only [mergeLoop, mergeRun_snd]
      conv_rhs => rw [← List.takeWhile_append_dropWhile
        (fun x => decide (x.k = d.k)) (d :: ds), List.map_append]
      congr 1
      apply ih
      have hrest : (d :: ds).dropWhile (fun x => decide (x.k = d.k))
          = ds.dropWhile (fun x => decide (x.k = d.k)) := by
        rw [List.dropWhile_cons_of_pos]
        simp
      rw [hrest]
      have hsub : List.Sublist (ds.dropWhile (fun x => decide (x.k = d.k))) ds :=
        List.dropWhile_sublist _
      have := hsub.length_le
      simp only [List.length_cons] at hlen
      omega

/-- Every key of the initial buffer (and every initially present key) has
an entry after the merge loop. -/
theorem mergeLoop_keys (time : Nat) :
    ∀ (fuel : Nat) (ds : List Diff) (es : List (Nat × EdgeList)) (k0 : Nat),
      ds.length ≤ fuel →
      ((∃ d ∈ ds, d.k = k0) ∨ edgesGet es k0 ≠ none) →
      edgesGet (mergeLoop time fuel es ds).1 k0 ≠ none := by
  intro fuel
  induction fuel with
  | zero =>
    intro ds es k0 hlen hin
    have hnil : ds = [] := List.eq_nil_of_length_eq_zero (Nat.le_zero.mp hlen)
    subst hnil
    rcases hin with ⟨d, hd, _⟩ | h
    · simp at hd
    · exact h
  | succ n ih =>
    intro ds es k0 hlen hin
    cases ds with
    | nil =>
      rcases hin with ⟨d, hd, _⟩ | h
      · simp at hd
      · exact h
    | cons d ds =>
      simp only [mergeLoop]
      apply ih
      · have hrest : (d :: ds).dropWhile (fun x => decide (x.k = d.k))
            = ds.dropWhile (fun x => decide (x.k = d.k)) := by
          rw [List.dropWhile_cons_of_pos]
          simp
        rw [hrest]
        have hsub : List.Sublist (ds.dropWhile (fun x => decide (x.k = d.k))) ds :=
          List.dropWhile_sublist _
        have := hsub.length_le
        simp only [List.length_cons] at hlen
        omega
      · rcases hin with ⟨d2, hd2, hk2⟩ | h
        · have hsplit : d2 ∈ (d :: ds).takeWhile (fun x => decide (x.k = d.k))
              ++ (d :: ds).dropWhile (fun x => decide (x.k = d.k)) := by
            rw [List.takeWhile_append_dropWhile]
            exact hd2
          rcases List.mem_append.mp hsplit with hrun | hrest
          · right
            have hkd : d2.k = d.k := by
              simpa using List.mem_takeWhile_imp hrun
            rw [← hk2, hkd]
            rw [edgesGet_edgesSet_self]
            simp
          · exact Or.inl ⟨d2, hrest, hk2⟩
        · right
          by_cases hkk : k0 = d.k
          · rw [hkk, edgesGet_edgesSet_self]
            simp
          · rw [edgesGet_edgesSet_other _ _ _ hkk]
            exact h

/-- After `merge_to t`, every remaining diff is unripe with nonzero weight
and its key has a committed entry. -/
theorem merge_to_postcond (s : Index) (t : Nat) :
    (∀ d ∈ (s.merge_to t).diffs.updates, ¬ d.t ≤ t ∧ d.w ≠ 0)
    ∧ (∀ d ∈ (s.merge_to t).diffs.updates,
        edgesGet (s.merge_to t).edges d.k ≠ none) := by
  have hupd : (s.merge_to t).diffs.updates
      = ((mergeLoop t s.diffs.updates.length s.edges s.diffs.updates).2).filter
          (fun d => decide (d.w ≠ 0)) := rfl
  constructor
  · intro d hd
    rw [hupd, mergeLoop_snd t _ _ _ (Nat.le_refl _)] at hd
    rcases List.mem_filter.mp hd with ⟨hmem, hw⟩
    have hw2 : d.w ≠ 0 := by simpa using hw
    rcases List.mem_map.mp hmem with ⟨d0, hd0, hde⟩
    by_cases hr : d0.t ≤ t
    · rw [if_pos hr] at hde
      exfalso
      apply hw2
      rw [← hde]
    · rw [if_neg hr] at hde
      subst hde
      exact ⟨hr, hw2⟩
  · intro d hd
    have hkey : ∃ d0 ∈ s.diffs.updates, d0.k = d.k := by
      rw [hupd, mergeLoop_snd t _ _ _ (Nat.le_refl _)] at hd
      rcases List.mem_filter.mp hd with ⟨hmem, _⟩
      rcases List.mem_map.mp hmem with ⟨d0, hd0, hde⟩
      refine ⟨d0, hd0, ?_⟩
      by_cases hr : d0.t ≤ t
      · rw [if_pos hr] at hde
        rw [← hde]
      · rw [if_neg hr] at hde
        rw [hde]
    exact mergeLoop_keys t _ _ _ d.k (Nat.le_refl _) (Or.inl hkey)

/-- `merge_to t` on a state whose diffs are all unripe with nonzero weight,
whose keys all have entries, and whose `min_time` is the recomputed
minimum, is the identity. -/
theorem merge_to_stable (s1 : Index) (t : Nat)
    (hA : ∀ d ∈ s1.diffs.updates, ¬ d.t ≤ t ∧ d.w ≠ 0)
    (hB : ∀ d ∈ s1.diffs.updates, edgesGet s1.edges d.k ≠ none)
    (hC : s1.diffs.min_time = minTimeOf s1.diffs.updates) :
    s1.merge_to t = s1 := by
  have hloop := mergeLoop_noop t s1.diffs.updates.length s1.diffs.updates
    s1.edges (fun d hd => (hA d hd).1) hB
  have hfilter : s1.diffs.updates.filter (fun d => decide (d.w ≠ 0))
      = s1.diffs.updates :=
    List.filter_eq_self.mpr (fun d hd => by simpa using (hA d hd).2)
  rcases s1 with ⟨cm, eg, ⟨upd, mt⟩⟩
  simp only at hloop hfilter hC
  simp only [Index.merge_to, hloop, hfilter]
  rw [← hC]

/-- C7: an immediate second `merge_to(t)` is the identity on the whole
index state, hence `count`, `forward_propose`, `reverse_propose`,
`intersect` and `intersect_only` answer identically after one and after
two merges. -/
theorem claim_C7 {W : Type} (s : Index) (t : Nat) :
    (s.merge_to t).merge_to t = s.merge_to t
    ∧ (∀ (data : List (Pfx × Nat × Nat × W)) (f : Pfx → Nat) (start ident : Nat),
        Index.count ((s.merge_to t).merge_to t) data f start ident
          = Index.count (s.merge_to t) data f start ident)
    ∧ (∀ (data : List (Pfx × List Nat × W)) (f : Pfx → Nat) (start : Nat),
        Index.forward_propose ((s.merge_to t).merge_to t) data f start
          = Index.forward_propose (s.merge_to t) data f start)
    ∧ (∀ (data : List (Pfx × List Nat × W)) (f : Pfx → Nat) (start : Nat),
        Index.reverse_propose ((s.merge_to t).merge_to t) data f start
          = Index.reverse_propose (s.merge_to t) data f start)
    ∧ (∀ (data : List (Pfx × List Nat × W)) (f : Pfx → Nat) (isF : Bool)
        (start : Nat),
        Index.intersect ((s.merge_to t).merge_to t) data f isF start
          = Index.intersect (s.merge_to t) data f isF start)
    ∧ (∀ (data : List (Pfx × W)) (f1 f2 : Pfx → Nat) (isF : Bool) (start : Nat),
        Index.intersect_only ((s.merge_to t).merge_to t) data f1 f2 isF start
          = Index.intersect_only (s.merge_to t) data f1 f2 isF start) := by
  obtain ⟨hA, hB⟩ := merge_to_postcond s t
  have hidem : (s.merge_to t).merge_to t = s.merge_to t :=
    merge_to_stable (s.merge_to t) t hA hB rfl
  refine ⟨hidem, ?_, ?_, ?_, ?_, ?_⟩
  · intro data f start ident
    rw [hidem]
  · intro data f start
    rw [hidem]
  · intro data f start
    rw [hidem]
  · intro data f isF start
    rw [hidem]
  · intro data f1 f2 isF start
    rw [hidem]

end DataflowJoin
